import Mathlib

/-!
Verification of the seqtree gradient-boosted sequence-prediction engine.

The Go source is shallowly embedded: 32/64-bit floating point values are
modelled as exact real numbers, except where a claim is explicitly about
IEEE special values (overflow to infinity, NaN); for those a dedicated
extended-value model `FV` is used.  Go slices become `List`s, Go `int`s
become `ℤ` (or `ℕ` where the source maintains non-negativity), and code
paths that panic are modelled with `Option`.
-/

namespace Seqtree

/-! ## Bitmaps, timesteps and samples

Embedding of the `Bitmap`, `Timestep`, `Sequence` and `TimestepSample`
types of `src/unnamed/part_011`.  A bitmap stores packed bytes,
least-significant bit first inside each byte. -/

/-- Embedding of `Bitmap` (src/unnamed/part_011): `numBits` plus a packed
byte array.  Bytes are naturals below 256. -/
structure Bitmap where
  numBits : ℕ
  bytes : List ℕ
  deriving Repr, DecidableEq

/-- Embedding of `NewBitmap`: all-zero bitmap with `ceil(numBits/8)` bytes. -/
def Bitmap.new (numBits : ℕ) : Bitmap :=
  ⟨numBits, List.replicate (numBits / 8 + (if numBits % 8 = 0 then 0 else 1)) 0⟩

/-- Embedding of `Bitmap.Get` (src/unnamed/part_011 lines 112-117): returns
`bytes[i>>3] & (1 << (i&7)) != 0`; the out-of-range panic is `none`. -/
def Bitmap.get (b : Bitmap) (i : ℤ) : Option Bool :=
  if i < 0 ∨ (b.numBits : ℤ) ≤ i then none
  else some (Nat.testBit (b.bytes.getD (i.toNat / 8) 0) (i.toNat % 8))

/-- Embedding of `Bitmap.Set` (src/unnamed/part_011 lines 120-128). -/
def Bitmap.set (b : Bitmap) (i : ℤ) (v : Bool) : Option Bitmap :=
  if i < 0 ∨ (b.numBits : ℤ) ≤ i then none
  else
    let byteIdx := i.toNat / 8
    let old := b.bytes.getD byteIdx 0
    let updated := if v then old ||| (1 <<< (i.toNat % 8)) else old &&& (255 - (1 <<< (i.toNat % 8)))
    some ⟨b.numBits, b.bytes.set byteIdx updated⟩

/-- Embedding of `Timestep` (src/unnamed/part_011): feature bitmap, output
logits and target vector.  Floats are modelled as reals. -/
structure TimestepB where
  features : Bitmap
  output : List ℝ
  target : List ℝ

/-- Embedding of `Sequence` (src/unnamed/part_011): an ordered list of
timesteps. -/
def SequenceB := List TimestepB

/-- Embedding of `TimestepSample` (src/unnamed/part_011): a sequence plus an
index into it.  The source only ever constructs non-negative indices
(`TimestepSamples`), so the index is a natural. -/
structure TimestepSample where
  sequence : List TimestepB
  index : ℕ

/-- Embedding of `BranchFeature` (src/model.go lines 145-155): a feature
index (`-1` is the sentinel) and a number of steps in the past. -/
structure BranchFeature where
  feature : ℤ
  stepsInPast : ℤ
  deriving Repr, DecidableEq

/-- Embedding of `TimestepSample.BranchFeature` (src/unnamed/part_011 lines
75-84).  Out-of-range panics (negative feature index into the bitmap, or an
index past the end of the sequence) are `none`. -/
def TimestepSample.branchFeature (t : TimestepSample) (b : BranchFeature) : Option Bool :=
  if b.stepsInPast > (t.index : ℤ) then some (b.feature = -1)
  else if b.feature = -1 then some false
  else
    match t.sequence.get? ((t.index : ℤ) - b.stepsInPast).toNat with
    | none => none
    | some ts => ts.features.get b.feature

/-- Embedding of `Timestep` access `t.Sequence[t.Index]`
(src/unnamed/part_011 lines 87-89). -/
def TimestepSample.timestep (t : TimestepSample) : Option TimestepB :=
  t.sequence.get? t.index

/-- Embedding of `lossSample.BranchFeatureFast` (src/unnamed/part_001 lines
987-995): the byte index (`-1` is the sentinel) and bit mask are
precomputed; the raw byte array is indexed directly. -/
def branchFeatureFast (t : TimestepSample) (stepsInPast byteIdx : ℤ) (bitMask : ℕ) :
    Option Bool :=
  if stepsInPast > (t.index : ℤ) then some (byteIdx = -1)
  else if byteIdx = -1 then some false
  else
    match t.sequence.get? ((t.index : ℤ) - stepsInPast).toNat with
    | none => none
    | some ts =>
      match ts.features.bytes.get? byteIdx.toNat with
      | none => none
      | some byte => some (byte &&& bitMask ≠ 0)

/-- The sentinel case of the branch-feature test: with `feature = -1` the
test is true exactly when `stepsInPast` reaches past the sequence start. -/
theorem branchFeature_sentinel (t : TimestepSample) (k : ℤ) :
    t.branchFeature ⟨-1, k⟩ = some (decide (k > (t.index : ℤ))) := by
  unfold TimestepSample.branchFeature
  by_cases h : k > (t.index : ℤ) <;> simp [h]

/-- A non-sentinel feature before the start of the sequence tests false. -/
theorem branchFeature_before_start (t : TimestepSample) (f k : ℤ)
    (hf : 0 ≤ f) (hk : k > (t.index : ℤ)) :
    t.branchFeature ⟨f, k⟩ = some false := by
  unfold TimestepSample.branchFeature
  have : ¬ (f = -1) := by omega
  simp [hk, this]

/-- A non-sentinel feature within the sequence reads bit `f` of the bitmap
of the timestep `stepsInPast` steps back. -/
theorem branchFeature_in_range (t : TimestepSample) (f k : ℤ) (ts : TimestepB)
    (hf : 0 ≤ f) (hk : ¬ k > (t.index : ℤ))
    (hget : t.sequence.get? ((t.index : ℤ) - k).toNat = some ts) :
    t.branchFeature ⟨f, k⟩ = ts.features.get f := by
  unfold TimestepSample.branchFeature
  have : ¬ (f = -1) := by omega
  simp only [List.get?_eq_getElem?] at hget
  simp [hk, this, hget]

/-- C3: for a timestep sample at index `i` and a branch feature `(f, k)`:
with `f = -1` the test is true iff `k > i`; with `f ≥ 0` and `k > i` it is
false; otherwise it is bit `f` of the bitmap of the timestep at
`sequence[i - k]`. -/
theorem claim_C3 (t : TimestepSample) (f k : ℤ) :
    (t.branchFeature ⟨-1, k⟩ = some true ↔ k > (t.index : ℤ)) ∧
    (0 ≤ f → k > (t.index : ℤ) → t.branchFeature ⟨f, k⟩ = some false) ∧
    (0 ≤ f → ¬ k > (t.index : ℤ) →
      ∀ ts, t.sequence.get? ((t.index : ℤ) - k).toNat = some ts →
        t.branchFeature ⟨f, k⟩ = ts.features.get f) := by
  refine ⟨?_, branchFeature_before_start t f k,
    fun hf hk ts hget => branchFeature_in_range t f k ts hf hk hget⟩
  rw [branchFeature_sentinel]
  by_cases h : k > (t.index : ℤ) <;> simp [h]

/-- Concrete timestep whose bitmap has two bits, with bit 1 set (byte 2). -/
def c3Ts : TimestepB := ⟨⟨2, [2]⟩, [], []⟩

/-- A one-timestep sequence used to exercise `claim_C3`. -/
def c3SampleSeq : List TimestepB := [c3Ts]

/-- Witness for `claim_C3` at a concrete sample: the sentinel past the
start is true, a real feature past the start is false, and an in-range
feature reads the stored bit. -/
theorem claim_C3_witness :
    TimestepSample.branchFeature ⟨c3SampleSeq, 0⟩ ⟨-1, 1⟩ = some true ∧
    TimestepSample.branchFeature ⟨c3SampleSeq, 0⟩ ⟨0, 1⟩ = some false ∧
    TimestepSample.branchFeature ⟨c3SampleSeq, 0⟩ ⟨1, 0⟩ = some true := by
  have h := claim_C3 (⟨c3SampleSeq, 0⟩ : TimestepSample)
  refine ⟨(h (-1) 1).1.mpr (by decide), (h 0 1).2.1 (by decide) (by decide), ?_⟩
  have h3 := (h 1 0).2.2 (by decide) (by decide) c3Ts rfl
  rw [h3]; decide

/-! ## The linked-list sequence model and the tree/model ensemble

Embedding of `src/sequence.go` and `src/model.go`.  A linked list of
timesteps is modelled as a `List` indexed by position. -/

/-- Embedding of `Timestep` (src/sequence.go lines 5-27): boolean feature
slice, output logits, target and gradient vectors. -/
structure TimestepA where
  features : List Bool
  output : List ℝ
  target : List ℝ
  gradient : List ℝ

/-- Embedding of `Timestep.BranchFeature` (src/sequence.go lines 41-52):
walk `stepsInPast` times through `Prev` pointers (staying at `nil` once
reached), test the sentinel on `nil`, else read `Features[f]`; a negative
or out-of-range feature index panics (`none`).  A non-positive
`stepsInPast` leaves the walk at the current timestep. -/
def branchFeatureA (seq : List TimestepA) (i : ℕ) (b : BranchFeature) : Option Bool :=
  if b.stepsInPast > (i : ℤ) then some (b.feature = -1)
  else
    match seq.get? ((i : ℤ) - max b.stepsInPast 0).toNat with
    | none => none
    | some ts => if b.feature < 0 then none else ts.features.get? b.feature.toNat

/-- Embedding of `Tree`, `Branch` and `Leaf` (src/model.go lines 77-141) as
a single inductive: a leaf holds an output delta and a feature id to set
(0 means none), a branch holds a feature and two subtrees. -/
inductive TreeA where
  | leaf (outputDelta : List ℝ) (feature : ℤ)
  | branch (feature : BranchFeature) (falseBranch trueBranch : TreeA)

/-- Embedding of `Tree.Evaluate` (src/model.go lines 86-95): route the
timestep to a leaf, returning its output delta and feature id. -/
def TreeA.evaluate (seq : List TimestepA) (i : ℕ) : TreeA → Option (List ℝ × ℤ)
  | .leaf d f => some (d, f)
  | .branch b fb tb =>
    match branchFeatureA seq i b with
    | none => none
    | some true => tb.evaluate seq i
    | some false => fb.evaluate seq i

/-- Embedding of `Tree.NumFeatures` (src/model.go lines 99-109): the number
of leaves carrying a non-zero feature id. -/
def TreeA.numFeatures : TreeA → ℤ
  | .leaf _ f => if f ≠ 0 then 1 else 0
  | .branch _ fb tb => fb.numFeatures + tb.numFeatures

/-- Embedding of `Tree.Scale` (src/model.go lines 112-121): multiply every
leaf's output delta in place by `s`. -/
def TreeA.scale (s : ℝ) : TreeA → TreeA
  | .leaf d f => .leaf (d.map (fun x => x * s)) f
  | .branch b fb tb => .branch b (fb.scale s) (tb.scale s)

/-- The leaves of a tree, in depth-first order (false branch first), as
(output delta, feature id) pairs. -/
def TreeA.leaves : TreeA → List (List ℝ × ℤ)
  | .leaf d f => [(d, f)]
  | .branch _ fb tb => fb.leaves ++ tb.leaves

/-- Embedding of `Model` (src/model.go lines 11-24). -/
structure ModelA where
  baseFeatures : ℤ
  extraFeatures : ℤ
  trees : List TreeA

/-- Embedding of `Model.NumFeatures` (src/model.go lines 28-30). -/
def ModelA.numFeatures (m : ModelA) : ℤ :=
  m.baseFeatures + m.extraFeatures

/-- Embedding of `Model.Add` (src/model.go lines 71-75): scale the tree by
`-stepSize`, append it, and add its feature count to `ExtraFeatures`. -/
def ModelA.add (m : ModelA) (t : TreeA) (stepSize : ℝ) : ModelA :=
  let t1 := t.scale (-stepSize)
  ⟨m.baseFeatures, m.extraFeatures + t1.numFeatures, m.trees ++ [t1]⟩

theorem scale_leaves (t : TreeA) (s : ℝ) :
    (t.scale s).leaves = t.leaves.map (fun df => (df.1.map (fun x => x * s), df.2)) := by
  induction t with
  | leaf d f => rfl
  | branch b fb tb ihf iht => simp [TreeA.scale, TreeA.leaves, ihf, iht]

theorem scale_numFeatures (t : TreeA) (s : ℝ) :
    (t.scale s).numFeatures = t.numFeatures := by
  induction t with
  | leaf d f => rfl
  | branch b fb tb ihf iht => simp [TreeA.scale, TreeA.numFeatures, ihf, iht]

/-- C5: `Model.Add(t, s)` scales every leaf output delta of `t` by `-s`,
appends the tree to the end of the tree list, and raises `ExtraFeatures` by
exactly `t.NumFeatures()`, so `NumFeatures()` accounts for the appended
tree's leaf-assigned features. -/
theorem claim_C5 (m : ModelA) (t : TreeA) (s : ℝ) :
    (m.add t s).trees = m.trees ++ [t.scale (-s)] ∧
    (t.scale (-s)).leaves = t.leaves.map (fun df => (df.1.map (fun x => x * (-s)), df.2)) ∧
    (m.add t s).extraFeatures = m.extraFeatures + t.numFeatures ∧
    (m.add t s).numFeatures = m.baseFeatures + (m.add t s).extraFeatures := by
  refine ⟨rfl, scale_leaves t (-s), ?_, rfl⟩
  simp [ModelA.add, scale_numFeatures]

/-! ## Model evaluation (src/model.go lines 32-67)

`Model.Evaluate` walks the trees in order; for each tree it walks the
timesteps in order, adds the routed leaf's output delta onto the
timestep's output (`blas32.Axpy` over `len(ts.Output)` entries, which
requires the delta to be at least as long) and sets the leaf's feature bit
when non-zero.  The mutation of one timestep is visible to the evaluation
of later timesteps of the same pass. -/

/-- One timestep of one tree of `Model.Evaluate` (src/model.go lines
37-45): route, axpy the delta onto the output, set the leaf feature.
Panics (`none`) on a failed route, a delta shorter than the output, or an
out-of-range feature id. -/
def evalStep (t : TreeA) (s : List TimestepA) (j : ℕ) : Option (List TimestepA) :=
  match s.get? j, t.evaluate s j with
  | some ts, some (delta, f) =>
    if delta.length < ts.output.length then none
    else
      let ts1 : TimestepA :=
        ⟨ts.features, List.zipWith (fun a b => a + b) ts.output delta, ts.target, ts.gradient⟩
      if f = 0 then some (s.set j ts1)
      else if f < 0 ∨ (ts.features.length : ℤ) ≤ f then none
      else some (s.set j ⟨ts1.features.set f.toNat true, ts1.output, ts1.target, ts1.gradient⟩)
  | _, _ => none

/-- One tree of `Model.Evaluate`: iterate `evalStep` over the timesteps in
order (the `start.Iterate` loop of src/model.go line 37). -/
def evalTree (t : TreeA) (s : List TimestepA) : Option (List TimestepA) :=
  (List.range s.length).foldlM (fun st j => evalStep t st j) s

/-- Embedding of `Model.Evaluate` (src/model.go lines 35-47): run every
tree, in insertion order, over the sequence. -/
def ModelA.evaluate (m : ModelA) (s : List TimestepA) : Option (List TimestepA) :=
  m.trees.foldlM (fun st t => evalTree t st) s

/-! ## The worker-pool skeleton (claim C1)

Every parallel operation of the core spawns `GOMAXPROCS` goroutines that
drain a channel of jobs and registers them in a `sync.WaitGroup`.  The
skeleton is modelled as a transition system over the set of completed jobs
plus a flag recording whether the operation has returned to its caller. -/

/-- State of one parallel call distributing `n` jobs: which jobs have been
completed by workers, and whether the call has returned. -/
structure PoolState (n : ℕ) where
  completed : Finset (Fin n)
  returned : Bool
  deriving DecidableEq

/-- Transitions of `Model.EvaluateAll` (src/model.go lines 50-67): a worker
may complete any job; the main goroutine may return at any time, because
the function creates a `sync.WaitGroup` but never calls `wg.Wait()` before
returning. -/
inductive EvaluateAllStep (n : ℕ) : PoolState n → PoolState n → Prop
  | work (i : Fin n) (c : Finset (Fin n)) (r : Bool) :
      EvaluateAllStep n ⟨c, r⟩ ⟨insert i c, r⟩
  | ret (c : Finset (Fin n)) : EvaluateAllStep n ⟨c, false⟩ ⟨c, true⟩

/-- Transitions of `AvgLossDelta` (src/steps.go lines 161-189) — the same
skeleton used by `OptimalStep` and `ScaleOptimalStep`: a worker may
complete any job, but the `wg.Wait()` call at src/steps.go line 187 lets
the main goroutine return only once every job is complete. -/
inductive AvgLossDeltaStep (n : ℕ) : PoolState n → PoolState n → Prop
  | work (i : Fin n) (c : Finset (Fin n)) (r : Bool) :
      AvgLossDeltaStep n ⟨c, r⟩ ⟨insert i c, r⟩
  | ret (c : Finset (Fin n)) (h : ∀ i : Fin n, i ∈ c) : AvgLossDeltaStep n ⟨c, false⟩ ⟨c, true⟩

/-- The initial state of a parallel call: nothing completed, not returned. -/
def poolInit (n : ℕ) : PoolState n := ⟨∅, false⟩

/-- C1 fails on `Model.EvaluateAll`: with a single sequence to evaluate,
the call can return while the sequence is still unevaluated, because the
`sync.WaitGroup` built in src/model.go lines 57-66 is never waited on. -/
theorem claim_C1_evaluateAll_returns_early :
    Relation.ReflTransGen (EvaluateAllStep 1) (poolInit 1)
      ⟨∅, true⟩ ∧ (∅ : Finset (Fin 1)) ≠ Finset.univ := by
  constructor
  · exact Relation.ReflTransGen.single (EvaluateAllStep.ret ∅)
  · intro h
    have : (0 : Fin 1) ∈ (∅ : Finset (Fin 1)) := h ▸ Finset.mem_univ 0
    simp at this

/-- By contrast, the skeleton with `wg.Wait()` (used by `AvgLossDelta`,
`OptimalStep`, `ScaleOptimalStep`) can only return once every job is
complete. -/
theorem avgLossDelta_blocks (n : ℕ) (s : PoolState n)
    (h : Relation.ReflTransGen (AvgLossDeltaStep n) (poolInit n) s)
    (hr : s.returned = true) : ∀ i : Fin n, i ∈ s.completed := by
  induction h with
  | refl => simp [poolInit] at hr
  | tail _ step ih =>
    cases step with
    | work i c r => exact fun j => Finset.mem_insert_of_mem (ih hr j)
    | ret c hc => exact hc

/-! ## Double evaluation (claim C4)

`Model.Evaluate` adds leaf deltas onto outputs, so evaluating twice from a
zero baseline doubles the outputs — provided the second pass routes every
timestep the way the first pass did.  Routing depends only on feature
bits; evaluation changes feature bits at the leaf-assigned ids, so the
doubling holds whenever no branch of the model tests a leaf-assigned id.
The claim as stated (for every model) fails: a branch may test a feature
bit set by another tree's leaf. -/

/-- The feature ids tested by the branches of a tree. -/
def TreeA.branchIds : TreeA → List ℤ
  | .leaf _ _ => []
  | .branch b fb tb => b.feature :: (fb.branchIds ++ tb.branchIds)

/-- The non-zero feature ids set by the leaves of a tree. -/
def TreeA.leafIds : TreeA → List ℤ
  | .leaf _ f => if f = 0 then [] else [f]
  | .branch _ fb tb => fb.leafIds ++ tb.leafIds

/-- The feature ids tested by any branch of the model's trees. -/
def ModelA.branchIds (m : ModelA) : List ℤ :=
  (m.trees.map TreeA.branchIds).flatten

/-- The non-zero feature ids set by any leaf of the model's trees. -/
def ModelA.leafIds (m : ModelA) : List ℤ :=
  (m.trees.map TreeA.leafIds).flatten

/-- Pointwise sum of two vectors (`blas32.Axpy` with unit scale). -/
def vadd (a b : List ℝ) : List ℝ := List.zipWith (fun x y => x + y) a b

/-- States `u` and `s` agree on sequence length, on feature lengths, on
output lengths, and on every feature bit whose id is outside `ids`. -/
def StateAgree (ids : List ℤ) (s u : List TimestepA) : Prop :=
  u.length = s.length ∧
  ∀ j tss tsu, s.get? j = some tss → u.get? j = some tsu →
    tsu.features.length = tss.features.length ∧
    tsu.output.length = tss.output.length ∧
    ∀ i : ℕ, ((i : ℤ) ∉ ids) → tsu.features.get? i = tss.features.get? i

theorem stateAgree_refl (ids : List ℤ) (s : List TimestepA) : StateAgree ids s s := by
  refine ⟨rfl, fun j tss tsu h1 h2 => ?_⟩
  rw [h1] at h2
  cases h2
  exact ⟨rfl, rfl, fun _ _ => rfl⟩

theorem vadd_right_comm (a c d : List ℝ) : vadd (vadd a c) d = vadd (vadd a d) c := by
  induction a generalizing c d with
  | nil => cases c <;> cases d <;> rfl
  | cons x a ih =>
    cases c with
    | nil => cases d <;> rfl
    | cons y c =>
      cases d with
      | nil => rfl
      | cons z d =>
        simp only [vadd, List.zipWith_cons_cons] at *
        exact congrArg₂ List.cons (by ring) (ih c d)

theorem vadd_self (a : List ℝ) : vadd a a = a.map (fun x => 2 * x) := by
  induction a with
  | nil => rfl
  | cons x a ih =>
    simp only [vadd, List.zipWith_cons_cons, List.map_cons] at *
    exact congrArg₂ List.cons (by ring) ih

theorem vadd_zero_left (a b : List ℝ) (ha : ∀ x ∈ a, x = 0) (hlen : a.length = b.length) :
    vadd a b = b := by
  induction a generalizing b with
  | nil => cases b with
    | nil => rfl
    | cons y b => simp at hlen
  | cons x a ih =>
    cases b with
    | nil => simp at hlen
    | cons y b =>
      simp only [vadd, List.zipWith_cons_cons]
      have hx : x = 0 := ha x (List.mem_cons_self x a)
      refine congrArg₂ _ (by rw [hx]; ring) ?_
      exact ih b (fun z hz => ha z (List.mem_cons_of_mem x hz)) (by simpa using hlen)

theorem branchFeatureA_agree (ids : List ℤ) (s u : List TimestepA)
    (hA : StateAgree ids s u) (b : BranchFeature) (hb : b.feature ∉ ids) (j : ℕ) :
    branchFeatureA u j b = branchFeatureA s j b := by
  unfold branchFeatureA
  by_cases hk : b.stepsInPast > (j : ℤ)
  · simp [hk]
  · simp only [hk, if_false]
    have hlen := hA.1
    rcases hs : s.get? (((j : ℤ) - max b.stepsInPast 0).toNat) with _ | tss
    · have h1 : s.length ≤ ((j : ℤ) - max b.stepsInPast 0).toNat := List.get?_eq_none.mp hs
      have h2 : u.get? (((j : ℤ) - max b.stepsInPast 0).toNat) = none :=
        List.get?_eq_none.mpr (hlen ▸ h1)
      rw [h2]
    · rcases hu : u.get? (((j : ℤ) - max b.stepsInPast 0).toNat) with _ | tsu
      · exfalso
        have h1 : u.length ≤ _ := List.get?_eq_none.mp hu
        have h2 : s.get? (((j : ℤ) - max b.stepsInPast 0).toNat) = none :=
          List.get?_eq_none.mpr (hlen ▸ h1)
        rw [h2] at hs
        exact Option.noConfusion hs
      · obtain ⟨hflen, holen, hfeat⟩ := hA.2 _ tss tsu hs hu
        by_cases hneg : b.feature < 0
        · simp [hneg]
        · simp only [hneg, if_false]
          apply hfeat
          intro hmem
          apply hb
          have heq : (b.feature.toNat : ℤ) = b.feature := Int.toNat_of_nonneg (le_of_not_lt hneg)
          rwa [heq] at hmem

theorem evaluate_agree (ids : List ℤ) (s u : List TimestepA) (hA : StateAgree ids s u)
    (t : TreeA) (hb : ∀ f ∈ t.branchIds, f ∉ ids) (j : ℕ) :
    t.evaluate u j = t.evaluate s j := by
  induction t with
  | leaf d f => rfl
  | branch b fb tb ihf iht =>
    have hbf : b.feature ∉ ids := hb b.feature (by simp [TreeA.branchIds])
    have hfb : ∀ f ∈ fb.branchIds, f ∉ ids := fun f hf =>
      hb f (by simp [TreeA.branchIds, hf])
    have htb : ∀ f ∈ tb.branchIds, f ∉ ids := fun f hf =>
      hb f (by simp [TreeA.branchIds, hf])
    unfold TreeA.evaluate
    rw [branchFeatureA_agree ids s u hA b hbf j]
    rcases branchFeatureA s j b with _ | bv
    · rfl
    · cases bv
      · exact ihf hfb
      · exact iht htb

theorem evaluate_feature_mem (t : TreeA) (s : List TimestepA) (j : ℕ) (δ : List ℝ) (f : ℤ)
    (h : t.evaluate s j = some (δ, f)) (hf : f ≠ 0) : f ∈ t.leafIds := by
  induction t with
  | leaf d g =>
    simp only [TreeA.evaluate, Option.some.injEq, Prod.mk.injEq] at h
    obtain ⟨h1, h2⟩ := h
    subst h2
    simp [TreeA.leafIds, hf]
  | branch b fb tb ihf iht =>
    unfold TreeA.evaluate at h
    rcases hbv : branchFeatureA s j b with _ | bv <;> rw [hbv] at h
    · exact Option.noConfusion h
    · simp only [TreeA.leafIds, List.mem_append]
      cases bv
      · exact Or.inl (ihf h)
      · exact Or.inr (iht h)

theorem evalStep_some (t : TreeA) (u u' : List TimestepA) (j : ℕ)
    (h : evalStep t u j = some u') :
    ∃ ts δ f, u.get? j = some ts ∧ t.evaluate u j = some (δ, f) ∧
      ts.output.length ≤ δ.length ∧
      ((f = 0 ∧ u' = u.set j ⟨ts.features, vadd ts.output δ, ts.target, ts.gradient⟩) ∨
       (f ≠ 0 ∧ 0 < f ∧ f < (ts.features.length : ℤ) ∧
         u' = u.set j ⟨ts.features.set f.toNat true, vadd ts.output δ, ts.target, ts.gradient⟩)) := by
  unfold evalStep at h
  rcases hts : u.get? j with _ | ts <;> rw [hts] at h
  · exact Option.noConfusion h
  rcases hev : t.evaluate u j with _ | df <;> rw [hev] at h
  · exact Option.noConfusion h
  obtain ⟨δ, f⟩ := df
  simp only at h
  by_cases hlen : δ.length < ts.output.length
  · rw [if_pos hlen] at h
    exact Option.noConfusion h
  rw [if_neg hlen] at h
  refine ⟨ts, δ, f, rfl, rfl, le_of_not_lt hlen, ?_⟩
  by_cases hf : f = 0
  · rw [if_pos hf] at h
    exact Or.inl ⟨hf, (Option.some.injEq _ _ ▸ h).symm⟩
  rw [if_neg hf] at h
  by_cases hrange : f < 0 ∨ (ts.features.length : ℤ) ≤ f
  · rw [if_pos hrange] at h
    exact Option.noConfusion h
  rw [if_neg hrange] at h
  push_neg at hrange
  refine Or.inr ⟨hf, ?_, hrange.2, (Option.some.injEq _ _ ▸ h).symm⟩
  rcases lt_or_eq_of_le hrange.1 with h0 | h0
  · exact h0
  · exact absurd h0.symm hf

theorem evalStep_preserves (ids : List ℤ) (s u u' : List TimestepA) (t : TreeA) (j : ℕ)
    (hlf : ∀ f ∈ t.leafIds, f ∈ ids)
    (hA : StateAgree ids s u) (h : evalStep t u j = some u') : StateAgree ids s u' := by
  obtain ⟨ts, δ, f, hts, hev, hlen, hcases⟩ := evalStep_some t u u' j h
  have hjlt : j < u.length := (List.get?_eq_some.mp hts).1
  have hout : (vadd ts.output δ).length = ts.output.length := by
    simp only [vadd, List.length_zipWith]
    omega
  have key : ∀ nf : List Bool, nf.length = ts.features.length →
      (∀ i : ℕ, ((i : ℤ) ∉ ids) → nf.get? i = ts.features.get? i) →
      StateAgree ids s (u.set j ⟨nf, vadd ts.output δ, ts.target, ts.gradient⟩) := by
    intro nf hnfl hnfg
    refine ⟨by rw [List.length_set]; exact hA.1, fun j' tss tsu' hs hu' => ?_⟩
    by_cases hj : j' = j
    · subst hj
      rw [List.get?_eq_getElem?, List.getElem?_set_self hjlt] at hu'
      obtain rfl : (⟨nf, vadd ts.output δ, ts.target, ts.gradient⟩ : TimestepA) = tsu' :=
        Option.some.injEq _ _ ▸ hu'
      obtain ⟨hfl, hol, hfg⟩ := hA.2 j' tss ts hs hts
      exact ⟨by simpa [hnfl], by simpa [hout], fun i hi => (hnfg i hi).trans (hfg i hi)⟩
    · rw [List.get?_eq_getElem?, List.getElem?_set_ne (fun hc => hj hc.symm),
        ← List.get?_eq_getElem?] at hu'
      exact hA.2 j' tss tsu' hs hu'
  rcases hcases with ⟨hf0, rfl⟩ | ⟨hf0, hfpos, hflt, rfl⟩
  · exact key ts.features rfl (fun _ _ => rfl)
  · have hfid : f ∈ ids := hlf f (evaluate_feature_mem t u j δ f hev hf0)
    refine key (ts.features.set f.toNat true) (List.length_set _ _ _) ?_
    intro i hi
    have hne : f.toNat ≠ i := by
      intro hc
      apply hi
      have : ((i : ℕ) : ℤ) = f := by
        rw [← hc]
        exact Int.toNat_of_nonneg (le_of_lt hfpos)
      rwa [this]
    rw [List.get?_eq_getElem?, List.getElem?_set_ne hne, ← List.get?_eq_getElem?]

/-- Lockstep relation between a first-pass state `u` and a second-pass
state `v`: both agree with the base sequence `s` off the leaf ids, and the
outputs of `v` lead those of `u` by the fixed per-timestep offset `c`. -/
def SimR (ids : List ℤ) (s : List TimestepA) (c : ℕ → List ℝ) (u v : List TimestepA) : Prop :=
  StateAgree ids s u ∧ StateAgree ids s v ∧
  ∀ j tsu tsv, u.get? j = some tsu → v.get? j = some tsv →
    tsv.output = vadd tsu.output (c j)

theorem evalStep_sim (ids : List ℤ) (s : List TimestepA) (c : ℕ → List ℝ) (t : TreeA) (j : ℕ)
    (u v u' v' : List TimestepA)
    (hbr : ∀ f ∈ t.branchIds, f ∉ ids) (hlf : ∀ f ∈ t.leafIds, f ∈ ids)
    (hR : SimR ids s c u v)
    (hu : evalStep t u j = some u') (hv : evalStep t v j = some v') :
    SimR ids s c u' v' := by
  obtain ⟨hAu, hAv, hoff⟩ := hR
  obtain ⟨tsu, δu, fu, htsu, hevu, hlenu, hcu⟩ := evalStep_some t u u' j hu
  obtain ⟨tsv, δv, fv, htsv, hevv, hlenv, hcv⟩ := evalStep_some t v v' j hv
  have hjltu : j < u.length := (List.get?_eq_some.mp htsu).1
  have hjltv : j < v.length := (List.get?_eq_some.mp htsv).1
  have hsame : some (δu, fu) = some (δv, fv) :=
    hevu.symm.trans ((evaluate_agree ids s u hAu t hbr j).trans
      ((evaluate_agree ids s v hAv t hbr j).symm.trans hevv))
  obtain ⟨rfl, rfl⟩ : δu = δv ∧ fu = fv := by
    have := Option.some.injEq _ _ ▸ hsame
    exact ⟨congrArg Prod.fst this, congrArg Prod.snd this⟩
  have hoffj := hoff j tsu tsv htsu htsv
  have hu'j : ∃ nfu, u' = u.set j ⟨nfu, vadd tsu.output δu, tsu.target, tsu.gradient⟩ := by
    rcases hcu with ⟨_, rfl⟩ | ⟨_, _, _, rfl⟩
    · exact ⟨tsu.features, rfl⟩
    · exact ⟨tsu.features.set fu.toNat true, rfl⟩
  have hv'j : ∃ nfv, v' = v.set j ⟨nfv, vadd tsv.output δu, tsv.target, tsv.gradient⟩ := by
    rcases hcv with ⟨_, rfl⟩ | ⟨_, _, _, rfl⟩
    · exact ⟨tsv.features, rfl⟩
    · exact ⟨tsv.features.set fu.toNat true, rfl⟩
  refine ⟨evalStep_preserves ids s u u' t j hlf hAu hu,
    evalStep_preserves ids s v v' t j hlf hAv hv, ?_⟩
  intro j' tsu' tsv' hgu hgv
  obtain ⟨nfu, rfl⟩ := hu'j
  obtain ⟨nfv, rfl⟩ := hv'j
  by_cases hj : j' = j
  · subst hj
    rw [List.get?_eq_getElem?, List.getElem?_set_self hjltu] at hgu
    rw [List.get?_eq_getElem?, List.getElem?_set_self hjltv] at hgv
    obtain rfl := (Option.some.injEq _ _ ▸ hgu)
    obtain rfl := (Option.some.injEq _ _ ▸ hgv)
    show vadd tsv.output δu = vadd (vadd tsu.output δu) (c j')
    rw [hoffj, vadd_right_comm]
  · rw [List.get?_eq_getElem?, List.getElem?_set_ne (fun hc => hj hc.symm),
      ← List.get?_eq_getElem?] at hgu hgv
    exact hoff j' tsu' tsv' hgu hgv

theorem foldSteps_sim (ids : List ℤ) (s : List TimestepA) (c : ℕ → List ℝ) (t : TreeA)
    (hbr : ∀ f ∈ t.branchIds, f ∉ ids) (hlf : ∀ f ∈ t.leafIds, f ∈ ids) :
    ∀ (js : List ℕ) (u v u' v' : List TimestepA), SimR ids s c u v →
      js.foldlM (fun st jj => evalStep t st jj) u = some u' →
      js.foldlM (fun st jj => evalStep t st jj) v = some v' → SimR ids s c u' v' := by
  intro js
  induction js with
  | nil =>
    intro u v u' v' hR hu hv
    simp only [List.foldlM_nil] at hu hv
    obtain rfl := (Option.some.injEq _ _ ▸ hu)
    obtain rfl := (Option.some.injEq _ _ ▸ hv)
    exact hR
  | cons j js ih =>
    intro u v u' v' hR hu hv
    simp only [List.foldlM_cons] at hu hv
    rcases h1 : evalStep t u j with _ | u1 <;> rw [h1] at hu
    · exact Option.noConfusion hu
    rcases h2 : evalStep t v j with _ | v1 <;> rw [h2] at hv
    · exact Option.noConfusion hv
    simp only [Option.bind_eq_bind, Option.some_bind] at hu hv
    exact ih u1 v1 u' v' (evalStep_sim ids s c t j u v u1 v1 hbr hlf hR h1 h2) hu hv

theorem evalTree_sim (ids : List ℤ) (s : List TimestepA) (c : ℕ → List ℝ) (t : TreeA)
    (hbr : ∀ f ∈ t.branchIds, f ∉ ids) (hlf : ∀ f ∈ t.leafIds, f ∈ ids)
    (u v u' v' : List TimestepA) (hR : SimR ids s c u v)
    (hu : evalTree t u = some u') (hv : evalTree t v = some v') : SimR ids s c u' v' := by
  unfold evalTree at hu hv
  rw [hR.1.1] at hu
  rw [hR.2.1.1] at hv
  exact foldSteps_sim ids s c t hbr hlf (List.range s.length) u v u' v' hR hu hv

theorem evalTrees_sim (ids : List ℤ) (s : List TimestepA) (c : ℕ → List ℝ) :
    ∀ (ts : List TreeA) (u v u' v' : List TimestepA),
      (∀ t ∈ ts, (∀ f ∈ t.branchIds, f ∉ ids) ∧ (∀ f ∈ t.leafIds, f ∈ ids)) →
      SimR ids s c u v →
      ts.foldlM (fun st t => evalTree t st) u = some u' →
      ts.foldlM (fun st t => evalTree t st) v = some v' → SimR ids s c u' v' := by
  intro ts
  induction ts with
  | nil =>
    intro u v u' v' _ hR hu hv
    simp only [List.foldlM_nil] at hu hv
    obtain rfl := (Option.some.injEq _ _ ▸ hu)
    obtain rfl := (Option.some.injEq _ _ ▸ hv)
    exact hR
  | cons t ts ih =>
    intro u v u' v' hts hR hu hv
    simp only [List.foldlM_cons] at hu hv
    rcases h1 : evalTree t u with _ | u1 <;> rw [h1] at hu
    · exact Option.noConfusion hu
    rcases h2 : evalTree t v with _ | v1 <;> rw [h2] at hv
    · exact Option.noConfusion hv
    simp only [Option.bind_eq_bind, Option.some_bind] at hu hv
    have hhd := hts t (List.mem_cons_self t ts)
    exact ih u1 v1 u' v' (fun t' ht' => hts t' (List.mem_cons_of_mem t ht'))
      (evalTree_sim ids s c t hhd.1 hhd.2 u v u1 v1 hR h1 h2) hu hv

theorem foldSteps_preserves (ids : List ℤ) (s : List TimestepA) (t : TreeA)
    (hlf : ∀ f ∈ t.leafIds, f ∈ ids) :
    ∀ (js : List ℕ) (u u' : List TimestepA), StateAgree ids s u →
      js.foldlM (fun st jj => evalStep t st jj) u = some u' → StateAgree ids s u' := by
  intro js
  induction js with
  | nil =>
    intro u u' hA hu
    simp only [List.foldlM_nil] at hu
    obtain rfl := (Option.some.injEq _ _ ▸ hu)
    exact hA
  | cons j js ih =>
    intro u u' hA hu
    simp only [List.foldlM_cons] at hu
    rcases h1 : evalStep t u j with _ | u1 <;> rw [h1] at hu
    · exact Option.noConfusion hu
    simp only [Option.bind_eq_bind, Option.some_bind] at hu
    exact ih u1 u' (evalStep_preserves ids s u u1 t j hlf hA h1) hu

theorem evalTrees_preserves (ids : List ℤ) (s : List TimestepA) :
    ∀ (ts : List TreeA) (u u' : List TimestepA),
      (∀ t ∈ ts, ∀ f ∈ t.leafIds, f ∈ ids) → StateAgree ids s u →
      ts.foldlM (fun st t => evalTree t st) u = some u' → StateAgree ids s u' := by
  intro ts
  induction ts with
  | nil =>
    intro u u' _ hA hu
    simp only [List.foldlM_nil] at hu
    obtain rfl := (Option.some.injEq _ _ ▸ hu)
    exact hA
  | cons t ts ih =>
    intro u u' hts hA hu
    simp only [List.foldlM_cons] at hu
    rcases h1 : evalTree t u with _ | u1 <;> rw [h1] at hu
    · exact Option.noConfusion hu
    simp only [Option.bind_eq_bind, Option.some_bind] at hu
    have hA1 : StateAgree ids s u1 := by
      unfold evalTree at h1
      exact foldSteps_preserves ids s t (hts t (List.mem_cons_self t ts))
        (List.range u.length) u u1 hA h1
    exact ih u1 u' (fun t' ht' => hts t' (List.mem_cons_of_mem t ht')) hA1 hu

/-- The property asserted by C4: starting from a fresh (all-zero-output)
sequence, evaluating the model twice yields, at every timestep, an output
vector exactly double the one from a single evaluation. -/
def EvaluateDoubles (m : ModelA) (s : List TimestepA) : Prop :=
  ∀ s1 s2, m.evaluate s = some s1 → m.evaluate s1 = some s2 →
    ∀ j ts1 ts2, s1.get? j = some ts1 → s2.get? j = some ts2 →
      ts2.output = ts1.output.map (fun x => 2 * x)

/-- C4 (amended): double evaluation from a zero baseline doubles outputs
provided no branch of any tree tests a feature id that is assigned by a
leaf of the model (leaf feature bits set in the first pass would otherwise
change routing in the second pass). -/
theorem claim_C4 (m : ModelA) (s : List TimestepA)
    (hzero : ∀ ts ∈ s, ∀ x ∈ ts.output, x = 0)
    (hsep : ∀ f ∈ m.branchIds, f ∉ m.leafIds) :
    EvaluateDoubles m s := by
  intro s1 s2 h1 h2 j ts1 ts2 hg1 hg2
  set ids := m.leafIds with hids
  have htree : ∀ t ∈ m.trees, (∀ f ∈ t.branchIds, f ∉ ids) ∧ (∀ f ∈ t.leafIds, f ∈ ids) := by
    intro t ht
    constructor
    · intro f hf
      apply hsep
      simp only [ModelA.branchIds, List.mem_flatten]
      exact ⟨t.branchIds, List.mem_map_of_mem TreeA.branchIds ht, hf⟩
    · intro f hf
      simp only [hids, ModelA.leafIds, List.mem_flatten]
      exact ⟨t.leafIds, List.mem_map_of_mem TreeA.leafIds ht, hf⟩
  have hA1 : StateAgree ids s s1 :=
    evalTrees_preserves ids s m.trees s s1 (fun t ht => (htree t ht).2)
      (stateAgree_refl ids s) h1
  set c : ℕ → List ℝ := fun jj => (((s1.get? jj).map TimestepA.output).getD []) with hc
  have hinit : SimR ids s c s s1 := by
    refine ⟨stateAgree_refl ids s, hA1, ?_⟩
    intro jj tsu tsv hgu hgv
    have hcjj : c jj = tsv.output := by
      rw [hc]
      simp only [List.get?_eq_getElem?] at hgv
      simp [hgv]
    rw [hcjj]
    have hmem : tsu ∈ s := List.get?_mem hgu
    have hlen : tsu.output.length = tsv.output.length :=
      ((hA1.2 jj tsu tsv hgu hgv).2.1).symm
    exact (vadd_zero_left tsu.output tsv.output (hzero tsu hmem) hlen).symm
  have hfinal : SimR ids s c s1 s2 :=
    evalTrees_sim ids s c m.trees s s1 s1 s2 htree hinit h1 h2
  have hoff := hfinal.2.2 j ts1 ts2 hg1 hg2
  have hcj : c j = ts1.output := by
    rw [hc]
    simp only [List.get?_eq_getElem?] at hg1
    simp [hg1]
  rw [hoff, hcj, vadd_self]

/-- First tree of the C4 counterexample model: branches on feature 5. -/
def cxTree1 : TreeA := .branch ⟨5, 0⟩ (.leaf [1] 0) (.leaf [10] 0)

/-- Second tree of the C4 counterexample model: its leaf sets feature 5. -/
def cxTree2 : TreeA := .leaf [0] 5

/-- C4 counterexample model: an earlier tree branches on a feature bit set
by a later tree's leaf. -/
def cxModel : ModelA := ⟨6, 0, [cxTree1, cxTree2]⟩

/-- Fresh one-timestep sequence (all outputs zero, all feature bits clear). -/
def cxSeq : List TimestepA := [⟨List.replicate 6 false, [0], [], []⟩]

/-- State after one evaluation of `cxModel` on `cxSeq`. -/
def cxTsOnce : TimestepA := ⟨[false, false, false, false, false, true], [1], [], []⟩

/-- State after two evaluations of `cxModel` on `cxSeq`. -/
def cxTsTwice : TimestepA := ⟨[false, false, false, false, false, true], [11], [], []⟩

/-- C4 as stated is false: on the fresh sequence `cxSeq`, the model
`cxModel` routes differently in the second pass (the feature bit set by
the second tree's leaf flips the first tree's branch), so the outputs
after two evaluations are `[11]`, not double of `[1]`. -/
theorem claim_C4_counterexample :
    (∀ ts ∈ cxSeq, ∀ x ∈ ts.output, x = 0) ∧ ¬ EvaluateDoubles cxModel cxSeq := by
  constructor
  · intro ts hts x hx
    simp only [cxSeq, List.mem_singleton] at hts
    subst hts
    simpa using hx
  · intro h
    have h1 : cxModel.evaluate cxSeq = some [cxTsOnce] := by
      simp [ModelA.evaluate, evalTree, evalStep, TreeA.evaluate, branchFeatureA, cxModel,
        cxTree1, cxTree2, cxSeq, cxTsOnce, List.foldlM, List.range_succ, vadd]
    have h2 : cxModel.evaluate [cxTsOnce] = some [cxTsTwice] := by
      simp [ModelA.evaluate, evalTree, evalStep, TreeA.evaluate, branchFeatureA, cxModel,
        cxTree1, cxTree2, cxTsOnce, cxTsTwice, List.foldlM, List.range_succ, vadd]
      norm_num
    have hx := h [cxTsOnce] [cxTsTwice] h1 h2 0 cxTsOnce cxTsTwice rfl rfl
    simp only [cxTsOnce, cxTsTwice, List.map_cons, List.map_nil, List.cons.injEq] at hx
    norm_num at hx

/-- Witness model for the amended C4: a single tree branching on a base
feature, with no leaf-assigned features. -/
def cwTree : TreeA := .branch ⟨0, 0⟩ (.leaf [1] 0) (.leaf [2] 0)

/-- Witness model wrapping `cwTree`. -/
def cwModel : ModelA := ⟨1, 0, [cwTree]⟩

/-- Fresh one-timestep witness sequence. -/
def cwSeq : List TimestepA := [⟨[false], [0], [], []⟩]

/-- Witness sequence after one pass. -/
def cwTsOnce : TimestepA := ⟨[false], [1], [], []⟩

/-- Witness sequence after two passes. -/
def cwTsTwice : TimestepA := ⟨[false], [2], [], []⟩

/-- Witness for `claim_C4`: on a model without leaf-assigned features the
second evaluation exactly doubles the outputs. -/
theorem claim_C4_witness :
    cwModel.evaluate cwSeq = some [cwTsOnce] ∧
    cwModel.evaluate [cwTsOnce] = some [cwTsTwice] ∧
    cwTsTwice.output = cwTsOnce.output.map (fun x => 2 * x) := by
  have h1 : cwModel.evaluate cwSeq = some [cwTsOnce] := by
    simp [ModelA.evaluate, evalTree, evalStep, TreeA.evaluate, branchFeatureA, cwModel,
      cwTree, cwSeq, cwTsOnce, List.foldlM, List.range_succ, vadd]
  have h2 : cwModel.evaluate [cwTsOnce] = some [cwTsTwice] := by
    simp [ModelA.evaluate, evalTree, evalStep, TreeA.evaluate, branchFeatureA, cwModel,
      cwTree, cwTsOnce, cwTsTwice, List.foldlM, List.range_succ, vadd]
    norm_num
  have hzero : ∀ ts ∈ cwSeq, ∀ x ∈ ts.output, x = 0 := by
    intro ts hts x hx
    simp only [cwSeq, List.mem_singleton] at hts
    subst hts
    simpa using hx
  have hsep : ∀ f ∈ cwModel.branchIds, f ∉ cwModel.leafIds := by
    intro f _
    simp [ModelA.leafIds, cwModel, cwTree, TreeA.leafIds]
  exact ⟨h1, h2, claim_C4 cwModel cwSeq hzero hsep [cwTsOnce] [cwTsTwice] h1 h2 0
    cwTsOnce cwTsTwice rfl rfl⟩

/-! ## Vector helpers, losses and heuristics

Embedding of the vector helpers (src/unnamed/part_008), the loss functions
(src/loss.go) and the heuristics (src/heuristic.go lines 1-169).  The
iterative Hessian solve and the heuristic aggregation are pure field
arithmetic, so they are defined over an arbitrary field; the program
instantiates them at the reals. -/

/-- Embedding of `vectorNormSquared` (src/heuristic.go / part_008). -/
def normSq {K : Type} [Field K] (v : List K) : K := (v.map (fun x => x * x)).sum

/-- Embedding of `vectorDot` (src/unnamed/part_008). -/
def dotV {K : Type} [Field K] (a b : List K) : K := (List.zipWith (fun x y => x * y) a b).sum

/-- Embedding of `vectorDifference` (src/unnamed/part_008). -/
def subV {K : Type} [Field K] (a b : List K) : List K := List.zipWith (fun x y => x - y) a b

/-- The running-maximum loop `max := outputs[0]; for x in rest { if x > max ... }`
used by the softmax loss functions; empty input would panic in the source. -/
def goMax (l : List ℝ) : ℝ := l.foldl (fun a x => max a x) (l.headD 0)

/-- Embedding of `Softmax.LossGrad` (src/loss.go lines 73-99). -/
noncomputable def softmaxLossGrad (outputs targets : List ℝ) : List ℝ :=
  let targetSum := targets.sum
  let maxOutput := goMax outputs
  let grad := outputs.map (fun x => Real.exp (x - maxOutput))
  let gradSum := grad.sum
  let div := 1 / gradSum
  List.zipWith (fun g t => targetSum * g * div - t) grad targets

/-- Embedding of `Hessian` (src/math_types.go lines 11-14): dimension plus
row-major data. -/
structure HessianM (K : Type) where
  dim : ℕ
  data : List K

/-- Embedding of `Softmax.LossHessian` (src/loss.go lines 103-141); the
source writes `Data[i + j*Dim]`, so entry `k` has `i = k % d`, `j = k / d`. -/
noncomputable def softmaxLossHessian (outputs targets : List ℝ) : HessianM ℝ :=
  let d := outputs.length
  let maxv := goMax outputs
  let exps := outputs.map (fun x => Real.exp (x - maxv))
  let expSum := exps.sum
  let expSumSq := expSum * expSum
  let targetSum := targets.sum
  ⟨d, (List.range (d * d)).map (fun k =>
      let i := k % d
      let j := k / d
      ((-(exps.getD j 0 * exps.getD i 0)) / expSumSq +
        (if i = j then exps.getD i 0 / expSum else 0)) * targetSum)⟩

/-- Embedding of `Sigmoid.LossGrad` (src/loss.go lines 241-249): coordinate
`i` is the first entry of the binary softmax gradient at `([x,0],[t,1-t])`. -/
noncomputable def sigmoidLossGrad (outputs targets : List ℝ) : List ℝ :=
  List.zipWith (fun x t => (softmaxLossGrad [x, 0] [t, 1 - t]).headD 0) outputs targets

/-- Embedding of `Sigmoid.LossHessian` (src/loss.go lines 251-262): a
diagonal matrix of binary softmax Hessian corners. -/
noncomputable def sigmoidLossHessian (outputs targets : List ℝ) : HessianM ℝ :=
  let d := outputs.length
  ⟨d, (List.range (d * d)).map (fun k =>
      let i := k % d
      let j := k / d
      if i = j then
        (softmaxLossHessian [outputs.getD i 0, 0] [targets.getD i 0, 1 - targets.getD i 0]).data.headD 0
      else 0)⟩

/-- Embedding of `MultiSoftmax.LossGrad` (src/loss.go lines 206-214):
concatenation of per-block softmax gradients. -/
noncomputable def multiSoftmaxLossGrad : List ℕ → List ℝ → List ℝ → List ℝ
  | [], _, _ => []
  | sz :: rest, outputs, targets =>
    softmaxLossGrad (outputs.take sz) (targets.take sz) ++
      multiSoftmaxLossGrad rest (outputs.drop sz) (targets.drop sz)

/-- The `GradLossFunc` implementors of src/loss.go as a tagged variant. -/
inductive GradLoss where
  | softmax : GradLoss
  | sigmoid : GradLoss
  | multiSoftmax (sizes : List ℕ) : GradLoss

/-- `LossGrad` dispatch over the tagged loss variant. -/
noncomputable def GradLoss.lossGrad : GradLoss → List ℝ → List ℝ → List ℝ
  | .softmax => softmaxLossGrad
  | .sigmoid => sigmoidLossGrad
  | .multiSoftmax sizes => multiSoftmaxLossGrad sizes

/-- The `HessianLossFunc` implementors of src/loss.go (`Softmax` and
`Sigmoid`; `MultiSoftmax` has no `LossHessian`). -/
inductive HessianLoss where
  | softmax : HessianLoss
  | sigmoid : HessianLoss

/-- `LossHessian` dispatch over the tagged variant. -/
noncomputable def HessianLoss.lossHessian : HessianLoss → List ℝ → List ℝ → HessianM ℝ
  | .softmax => softmaxLossHessian
  | .sigmoid => sigmoidLossHessian

/-- Embedding of `GradientHeuristic.SampleVector` (src/heuristic.go lines
42-45): a leading count channel of 1 followed by the loss gradient. -/
noncomputable def gradSampleVector (L : GradLoss) (ts : TimestepB) : List ℝ :=
  1 :: L.lossGrad ts.output ts.target

/-- Embedding of `GradientHeuristic.Quality` (src/heuristic.go lines
47-53); indexing an empty aggregate panics (`none`). -/
noncomputable def gradQuality : List ℝ → Option ℝ
  | [] => none
  | count :: g => some (if count = 0 then 0 else normSq g / count)

/-- Embedding of `GradientHeuristic.LeafOutput` (src/heuristic.go lines
55-63): scales the gradient channels by `-1/count`, with no zero guard. -/
noncomputable def gradLeafOutput : List ℝ → Option (List ℝ)
  | [] => none
  | count :: g => some (g.map (fun x => x * (-1 / count)))

/-- Embedding of `HessianHeuristic` (src/heuristic.go lines 68-78). -/
structure HessianHeuristicM where
  loss : HessianLoss
  damping : ℝ

/-- Add the damping to the diagonal of row-major Hessian data (the loop at
src/heuristic.go lines 84-86 adds `Damping` at every index `i + i*Dim`,
i.e. wherever `k % dim = k / dim`). -/
def dampedData (damping : ℝ) (h : HessianM ℝ) : List ℝ :=
  List.zipWith (fun k x => if k % h.dim = k / h.dim then x + damping else x)
    (List.range h.data.length) h.data

/-- Embedding of `HessianHeuristic.SampleVector` (src/heuristic.go lines
80-88): the SOFTMAX gradient (hardcoded `Softmax{}.LossGrad`) followed by
the configured loss's Hessian with damping added to the diagonal. -/
noncomputable def hessSampleVector (hh : HessianHeuristicM) (ts : TimestepB) : List ℝ :=
  softmaxLossGrad ts.output ts.target ++
    dampedData hh.damping (hh.loss.lossHessian ts.output ts.target)

/-- Embedding of `HessianHeuristic.inferDimension` (src/heuristic.go lines
116-124).  `sort.Search(vecSize, f)` returns the least `n < vecSize` with
`n*(n+1) ≥ vecSize`, or `vecSize`; since `vecSize*(vecSize+1) ≥ vecSize`
always holds this is the least such `n ≤ vecSize`, here obtained by
`Nat.find`.  The panic on a non-matching size is `none`. -/
def inferDimension (vecSize : ℕ) : Option ℕ :=
  let x := Nat.find (⟨vecSize, Nat.le_mul_of_pos_right vecSize (Nat.succ_pos vecSize)⟩ :
    ∃ n, vecSize ≤ n * (n + 1))
  if x * (x + 1) = vecSize then some x else none

/-- Embedding of `Hessian.Apply` (src/math_types.go lines 17-29):
`res[i] = Σ_j Data[i*Dim+j] * v[j]`.  The source panics when
`len(v) ≠ Dim`; all call sites use matching lengths, for which the `getD`
reads below coincide with the source's indexing. -/
def applyH {K : Type} [Field K] (dim : ℕ) (data v : List K) : List K :=
  (List.range dim).map (fun i =>
    ((List.range dim).map (fun j => data.getD (i * dim + j) 0 * v.getD j 0)).sum)

/-- The gradient-descent loop of `Hessian.ApplyInverse` (src/math_types.go
lines 38-49), with the remaining iteration count as fuel; a zero-magnitude
search direction breaks out of the loop. -/
def applyInverseGo {K : Type} [Field K] [DecidableEq K] (dim : ℕ) (data v : List K) :
    ℕ → List K → List K
  | 0, x => x
  | Nat.succ n, x =>
    let residual := subV v (applyH dim data x)
    let product := applyH dim data residual
    let divisor := normSq product
    if divisor = 0 then x
    else applyInverseGo dim data v n
      (List.zipWith (fun xj rj => xj + (dotV residual product / divisor) * rj) x residual)

/-- Embedding of `Hessian.ApplyInverse` (src/math_types.go lines 32-52):
`dim` gradient-descent steps from the zero vector. -/
def applyInverse {K : Type} [Field K] [DecidableEq K] (dim : ℕ) (data v : List K) : List K :=
  applyInverseGo dim data v dim (v.map (fun _ => 0))

/-- Embedding of `HessianHeuristic.minimize` (src/heuristic.go lines
100-114): split the aggregate into gradient and Hessian, solve
`H x = -g` iteratively, and return the solution with its quadratic value.
The invalid-size panic of `inferDimension` is `none`. -/
def hessMinimize {K : Type} [Field K] [DecidableEq K] (sum : List K) :
    Option (List K × K) :=
  match inferDimension sum.length with
  | none => none
  | some dim =>
    let grad := sum.take dim
    let data := sum.drop dim
    let negGrad := grad.map (fun x => -x)
    let solution := applyInverse dim data negGrad
    let value := dotV grad solution + (1 / 2 : K) * dotV solution (applyH dim data solution)
    some (solution, value)

/-- Embedding of `HessianHeuristic.Quality` (src/heuristic.go lines 90-93). -/
def hessQuality {K : Type} [Field K] [DecidableEq K] (sum : List K) : Option K :=
  (hessMinimize sum).map (fun p => -p.2)

/-- Embedding of `HessianHeuristic.LeafOutput` (src/heuristic.go lines 95-98). -/
def hessLeafOutput {K : Type} [Field K] [DecidableEq K] (sum : List K) : Option (List K) :=
  (hessMinimize sum).map (fun p => p.1)

theorem softmaxLossGrad_length (o t : List ℝ) :
    (softmaxLossGrad o t).length = min o.length t.length := by
  simp [softmaxLossGrad]

theorem lossHessian_data_length (L : HessianLoss) (o t : List ℝ) :
    (L.lossHessian o t).data.length = o.length * o.length ∧
    (L.lossHessian o t).dim = o.length := by
  cases L <;> simp [HessianLoss.lossHessian, softmaxLossHessian, sigmoidLossHessian]

theorem dampedData_length (d : ℝ) (h : HessianM ℝ) :
    (dampedData d h).length = h.data.length := by
  simp [dampedData]

theorem inferDimension_valid (d : ℕ) : inferDimension (d + d * d) = some d := by
  unfold inferDimension
  have hfind : Nat.find (⟨d + d * d, Nat.le_mul_of_pos_right (d + d * d)
      (Nat.succ_pos (d + d * d))⟩ : ∃ n, d + d * d ≤ n * (n + 1)) = d := by
    rw [Nat.find_eq_iff]
    refine ⟨by nlinarith, fun m hm => ?_⟩
    push_neg
    nlinarith
  simp only [hfind]
  rw [if_pos (by ring)]

theorem inferDimension_invalid (L : ℕ) (h : ∀ d, d + d * d ≠ L) : inferDimension L = none := by
  unfold inferDimension
  rw [if_neg]
  intro hc
  exact h (Nat.find _) (by rw [← hc]; ring)

/-- C2 (amended): `HessianHeuristic.SampleVector` returns the SOFTMAX
gradient (the source hardcodes `Softmax{}.LossGrad`, regardless of the
configured loss) followed by the configured loss's `d×d` Hessian with
`Damping` added to each diagonal entry — a vector of length `d + d²`; and
`inferDimension` (used by both `Quality` and `LeafOutput`) inverts
`d + d² = L`, panicking when no integer `d` satisfies it. -/
theorem claim_C2 :
    (∀ (hh : HessianHeuristicM) (ts : TimestepB),
      hessSampleVector hh ts = softmaxLossGrad ts.output ts.target ++
        dampedData hh.damping (hh.loss.lossHessian ts.output ts.target) ∧
      (ts.target.length = ts.output.length →
        (hessSampleVector hh ts).length =
          ts.output.length + ts.output.length * ts.output.length)) ∧
    (∀ d : ℕ, inferDimension (d + d * d) = some d) ∧
    (∀ L : ℕ, (∀ d, d + d * d ≠ L) →
      inferDimension L = none ∧
      ∀ v : List ℝ, v.length = L → hessQuality v = none ∧ hessLeafOutput v = none) := by
  refine ⟨fun hh ts => ⟨rfl, fun hlen => ?_⟩, inferDimension_valid, fun L hL => ?_⟩
  · rw [hessSampleVector, List.length_append, softmaxLossGrad_length, hlen, min_self,
      dampedData_length, (lossHessian_data_length hh.loss ts.output ts.target).1]
  · refine ⟨inferDimension_invalid L hL, fun v hv => ?_⟩
    have hm : hessMinimize v = none := by
      unfold hessMinimize
      rw [hv, inferDimension_invalid L hL]
    exact ⟨by rw [hessQuality, hm]; rfl, by rw [hessLeafOutput, hm]; rfl⟩

/-- Timestep used to refute the "gradient of the configured loss" reading
of C2: equal outputs, both targets 1. -/
def c2Ts : TimestepB := ⟨⟨0, []⟩, [0, 0], [1, 1]⟩

theorem softmaxGrad_c2 : softmaxLossGrad [0, 0] [1, 1] = [0, 0] := by
  simp [softmaxLossGrad, goMax]

theorem sigmoidGrad_c2 : sigmoidLossGrad [0, 0] [1, 1] = [-(1 / 2), -(1 / 2)] := by
  simp [sigmoidLossGrad, softmaxLossGrad, goMax]
  norm_num

/-- C2 as stated is false for a `HessianHeuristic` configured with the
`Sigmoid` loss: the sample vector starts with the softmax gradient
(`[0, 0]` here), not the configured loss's gradient (`[-1/2, -1/2]`). -/
theorem claim_C2_counterexample :
    hessSampleVector ⟨.sigmoid, 1 / 10⟩ c2Ts ≠
      sigmoidLossGrad c2Ts.output c2Ts.target ++
        dampedData (1 / 10) (HessianLoss.sigmoid.lossHessian c2Ts.output c2Ts.target) := by
  intro h
  rw [hessSampleVector] at h
  have ho : c2Ts.output = [0, 0] := rfl
  have ht : c2Ts.target = [1, 1] := rfl
  rw [ho, ht, softmaxGrad_c2, sigmoidGrad_c2] at h
  have hhead := congrArg (fun l => l.headD 0) h
  simp at hhead

/-- Timestep for the C2 witness: binary softmax at the origin. -/
def c2wTs : TimestepB := ⟨⟨0, []⟩, [0, 0], [1, 0]⟩

/-- Witness for `claim_C2`: at a two-dimensional sample the vector has
length `2 + 2² = 6`; `inferDimension` recovers 2 from 6 and rejects 5, so
`Quality`/`LeafOutput` panic on a length-5 aggregate. -/
theorem claim_C2_witness :
    (hessSampleVector ⟨.softmax, 1 / 10⟩ c2wTs).length = 6 ∧
    inferDimension 6 = some 2 ∧ inferDimension 5 = none ∧
    hessQuality (K := ℝ) [1, 1, 1, 1, 1] = none := by
  have h := claim_C2
  have h5 : ∀ d : ℕ, d + d * d ≠ 5 := by
    intro d
    rcases Nat.lt_or_ge d 3 with h3 | h3
    · interval_cases d <;> decide
    · nlinarith
  refine ⟨?_, by simpa using h.2.1 2, (h.2.2 5 h5).1, ((h.2.2 5 h5).2 [1, 1, 1, 1, 1] rfl).1⟩
  have := (h.1 ⟨.softmax, 1 / 10⟩ c2wTs).2 rfl
  simpa using this

/-! ## Superadditivity of the split criterion (claim C7)

For the gradient heuristic the quality of a sample aggregate is
`|grad|²/count`; splitting a sample set can only increase the total
quality (per-coordinate Engel-form Cauchy–Schwarz).  For the Hessian
heuristic the quality goes through the inexact iterative solve of
`Hessian.ApplyInverse`, and superadditivity fails. -/

/-- Sum of a list of vectors, as the builder's aggregation does (all the
program's vectors in one aggregation share one length). -/
def vecSum : List (List ℝ) → List ℝ
  | [] => []
  | [v] => v
  | v :: rest => vadd v (vecSum rest)

theorem vecSum_cons (v : List (List ℝ)) (a : List ℝ) (h : v ≠ []) :
    vecSum (a :: v) = vadd a (vecSum v) := by
  cases v with
  | nil => exact absurd rfl h
  | cons b rest => rfl

theorem vadd_length (a b : List ℝ) : (vadd a b).length = min a.length b.length := by
  simp [vadd]

theorem vecSum_length (v : List (List ℝ)) (ℓ : ℕ) (hne : v ≠ [])
    (hl : ∀ x ∈ v, x.length = ℓ) : (vecSum v).length = ℓ := by
  induction v with
  | nil => exact absurd rfl hne
  | cons a rest ih =>
    cases rest with
    | nil => exact hl a (List.mem_cons_self a [])
    | cons b r2 =>
      rw [vecSum_cons (b :: r2) a (by simp)]
      rw [vadd_length, hl a (List.mem_cons_self a _),
        ih (by simp) (fun x hx => hl x (List.mem_cons_of_mem a hx)), min_self]

theorem vadd_assoc (a b c : List ℝ) : vadd a (vadd b c) = vadd (vadd a b) c := by
  induction a generalizing b c with
  | nil => cases b <;> cases c <;> rfl
  | cons x a ih =>
    cases b with
    | nil => cases c <;> rfl
    | cons y b =>
      cases c with
      | nil => rfl
      | cons z c =>
        simp only [vadd, List.zipWith_cons_cons] at *
        exact congrArg₂ List.cons (by ring) (ih b c)

theorem vecSum_append (A B : List (List ℝ)) (hA : A ≠ []) (hB : B ≠ []) :
    vecSum (A ++ B) = vadd (vecSum A) (vecSum B) := by
  induction A with
  | nil => exact absurd rfl hA
  | cons a rest ih =>
    cases rest with
    | nil =>
      simp only [List.singleton_append]
      rw [vecSum_cons B a hB]
      rfl
    | cons b r2 =>
      have hne : (b :: r2) ++ B ≠ [] := by simp
      rw [List.cons_append, vecSum_cons ((b :: r2) ++ B) a hne, ih (by simp),
        vecSum_cons (b :: r2) a (by simp), vadd_assoc]

theorem normSq_nonneg (v : List ℝ) : 0 ≤ normSq v := by
  apply List.sum_nonneg
  intro x hx
  obtain ⟨y, _, rfl⟩ := List.mem_map.mp hx
  exact mul_self_nonneg y

theorem engel_lists (n1 n2 : ℝ) (h1 : 0 < n1) (h2 : 0 < n2) :
    ∀ (G1 G2 : List ℝ), normSq (vadd G1 G2) / (n1 + n2) ≤ normSq G1 / n1 + normSq G2 / n2 := by
  have expand : ∀ (x : ℝ) (v : List ℝ), normSq (x :: v) = x * x + normSq v := by
    intro x v
    simp [normSq]
  intro G1
  induction G1 with
  | nil =>
    intro G2
    have hG2 := normSq_nonneg G2
    have h0 : normSq (vadd ([] : List ℝ) G2) = 0 := by cases G2 <;> simp [vadd, normSq]
    rw [h0]
    have hz : normSq ([] : List ℝ) = 0 := by simp [normSq]
    rw [hz, zero_div, zero_div, zero_add]
    exact div_nonneg hG2 (le_of_lt h2)
  | cons a G1 ih =>
    intro G2
    cases G2 with
    | nil =>
      have hG1 := normSq_nonneg G1
      have h0 : normSq (vadd (a :: G1) ([] : List ℝ)) = 0 := by simp [vadd, normSq]
      rw [h0, expand]
      have hn : normSq ([] : List ℝ) = 0 := by simp [normSq]
      rw [hn, zero_div, zero_div, add_zero]
      exact div_nonneg (by nlinarith [mul_self_nonneg a]) (le_of_lt h1)
    | cons b G2 =>
      have hva : vadd (a :: G1) (b :: G2) = (a + b) :: vadd G1 G2 := rfl
      rw [hva, expand, expand, expand]
      have hstep : (a + b) * (a + b) / (n1 + n2) ≤ a * a / n1 + b * b / n2 := by
        rw [div_add_div _ _ (ne_of_gt h1) (ne_of_gt h2),
          div_le_div_iff (by positivity) (by positivity)]
        nlinarith [sq_nonneg (a * n2 - b * n1)]
      have hrest := ih G2
      calc ((a + b) * (a + b) + normSq (vadd G1 G2)) / (n1 + n2)
          = (a + b) * (a + b) / (n1 + n2) + normSq (vadd G1 G2) / (n1 + n2) := by ring
        _ ≤ (a * a / n1 + b * b / n2) + (normSq G1 / n1 + normSq G2 / n2) :=
            add_le_add hstep hrest
        _ = (a * a + normSq G1) / n1 + (b * b + normSq G2) / n2 := by ring

theorem vecSum_gradSamples (L : GradLoss) (l : List TimestepB) (h : l ≠ []) :
    vecSum (l.map (gradSampleVector L)) =
      ((l.length : ℝ)) :: vecSum (l.map (fun ts => L.lossGrad ts.output ts.target)) := by
  induction l with
  | nil => exact absurd rfl h
  | cons a rest ih =>
    cases rest with
    | nil => simp [vecSum, gradSampleVector]
    | cons b r2 =>
      have hne : List.map (gradSampleVector L) (b :: r2) ≠ [] := by simp
      have hne2 : List.map (fun ts => L.lossGrad ts.output ts.target) (b :: r2) ≠ [] := by simp
      have hl : vecSum (List.map (gradSampleVector L) (a :: b :: r2)) =
          vadd (gradSampleVector L a) (vecSum (List.map (gradSampleVector L) (b :: r2))) := by
        rw [List.map_cons]
        exact vecSum_cons _ _ hne
      have hr : vecSum (List.map (fun ts => L.lossGrad ts.output ts.target) (a :: b :: r2)) =
          vadd (L.lossGrad a.output a.target)
            (vecSum (List.map (fun ts => L.lossGrad ts.output ts.target) (b :: r2))) := by
        rw [List.map_cons]
        exact vecSum_cons _ _ hne2
      rw [hl, hr, ih (by simp)]
      simp only [gradSampleVector, vadd, List.zipWith_cons_cons, List.length_cons]
      refine congrArg₂ List.cons ?_ rfl
      push_cast
      ring

/-- C7 (amended): the gradient heuristic's split criterion is
superadditive — for any partition of a sample set into two non-empty parts
(all gradients of one common length), the summed part qualities are at
least the whole-set quality. -/
theorem claim_C7 (L : GradLoss) (s1 s2 : List TimestepB)
    (h1 : s1 ≠ []) (h2 : s2 ≠ []) :
    ∃ q1 q2 q : ℝ,
      gradQuality (vecSum (s1.map (gradSampleVector L))) = some q1 ∧
      gradQuality (vecSum (s2.map (gradSampleVector L))) = some q2 ∧
      gradQuality (vecSum ((s1 ++ s2).map (gradSampleVector L))) = some q ∧
      q ≤ q1 + q2 := by
  have hn1 : (0 : ℝ) < (s1.length : ℝ) := by
    have := List.length_pos.mpr h1
    exact_mod_cast this
  have hn2 : (0 : ℝ) < (s2.length : ℝ) := by
    have := List.length_pos.mpr h2
    exact_mod_cast this
  set G1 := vecSum (s1.map (fun ts => L.lossGrad ts.output ts.target)) with hG1
  set G2 := vecSum (s2.map (fun ts => L.lossGrad ts.output ts.target)) with hG2
  have e1 := vecSum_gradSamples L s1 h1
  have e2 := vecSum_gradSamples L s2 h2
  have etot : vecSum ((s1 ++ s2).map (gradSampleVector L)) =
      ((s1.length : ℝ) + (s2.length : ℝ)) :: vadd G1 G2 := by
    rw [List.map_append, vecSum_append _ _ (by simpa using h1) (by simpa using h2), e1, e2]
    rfl
  refine ⟨normSq G1 / (s1.length : ℝ), normSq G2 / (s2.length : ℝ),
    normSq (vadd G1 G2) / ((s1.length : ℝ) + (s2.length : ℝ)), ?_, ?_, ?_, ?_⟩
  · rw [e1, gradQuality, if_neg (ne_of_gt hn1)]
  · rw [e2, gradQuality, if_neg (ne_of_gt hn2)]
  · rw [etot, gradQuality, if_neg (by positivity)]
  · exact engel_lists _ _ hn1 hn2 G1 G2

/-- Witness for `claim_C7`: two singleton parts holding the same softmax
sample at the origin. -/
theorem claim_C7_witness :
    ∃ q1 q2 q : ℝ,
      gradQuality (vecSum ([c2wTs].map (gradSampleVector .softmax))) = some q1 ∧
      gradQuality (vecSum ([c2wTs].map (gradSampleVector .softmax))) = some q2 ∧
      gradQuality (vecSum (([c2wTs] ++ [c2wTs]).map (gradSampleVector .softmax))) = some q ∧
      q ≤ q1 + q2 :=
  claim_C7 .softmax [c2wTs] [c2wTs] (by simp) (by simp)

/-- The Hessian heuristic used in the C7 counterexample: softmax loss with
the documentation's suggested damping 0.1. -/
noncomputable def c7Heur : HessianHeuristicM := ⟨.softmax, 1 / 10⟩

/-- C7 counterexample sample: logits `log [3,3,4]`, one-hot target 1. -/
noncomputable def c7s0 : TimestepB := ⟨⟨0, []⟩, [Real.log 3, Real.log 3, Real.log 4], [0, 1, 0]⟩

/-- C7 counterexample sample: logits `log [4,2,4]`, one-hot target 1. -/
noncomputable def c7s1 : TimestepB := ⟨⟨0, []⟩, [Real.log 4, Real.log 2, Real.log 4], [0, 1, 0]⟩

/-- C7 counterexample sample: logits `log [4,4,1]`, one-hot target 1. -/
noncomputable def c7s2 : TimestepB := ⟨⟨0, []⟩, [Real.log 4, Real.log 4, 0], [0, 1, 0]⟩

theorem c7vec0 : hessSampleVector c7Heur c7s0 =
    [3/10, -(7/10), 2/5, 31/100, -(9/100), -(3/25), -(9/100), 31/100, -(3/25),
      -(3/25), -(3/25), 17/50] := by
  have hmax : goMax [Real.log 3, Real.log 3, Real.log 4] = Real.log 4 := by
    have h34 : Real.log 3 ≤ Real.log 4 := le_of_lt (Real.log_lt_log (by norm_num) (by norm_num))
    simp [goMax, max_eq_right h34]
  have e34 : Real.exp (Real.log 3 - Real.log 4) = 3 / 4 := by
    rw [Real.exp_sub, Real.exp_log (by norm_num), Real.exp_log (by norm_num)]
  have e44 : Real.exp (Real.log 4 - Real.log 4) = 1 := by
    rw [sub_self, Real.exp_zero]
  show softmaxLossGrad [Real.log 3, Real.log 3, Real.log 4] [0, 1, 0] ++
      dampedData (1/10) (softmaxLossHessian [Real.log 3, Real.log 3, Real.log 4] [0, 1, 0]) = _
  have hgrad : softmaxLossGrad [Real.log 3, Real.log 3, Real.log 4] [0, 1, 0] =
      [3/10, -(7/10), 2/5] := by
    rw [softmaxLossGrad, hmax]
    simp [e34, e44]
    norm_num
  have hhess : dampedData (1/10)
      (softmaxLossHessian [Real.log 3, Real.log 3, Real.log 4] [0, 1, 0]) =
      [31/100, -(9/100), -(3/25), -(9/100), 31/100, -(3/25), -(3/25), -(3/25), 17/50] := by
    rw [softmaxLossHessian, hmax]
    simp only [List.map_cons, List.map_nil, e34, e44, List.length_cons, List.length_nil]
    rw [dampedData]
    norm_num [List.range_succ]
  rw [hgrad, hhess]
  rfl

theorem c7vec1 : hessSampleVector c7Heur c7s1 =
    [2/5, -(4/5), 2/5, 17/50, -(2/25), -(4/25), -(2/25), 13/50, -(2/25),
      -(4/25), -(2/25), 17/50] := by
  have h24 : Real.log 2 ≤ Real.log 4 := le_of_lt (Real.log_lt_log (by norm_num) (by norm_num))
  have hmax : goMax [Real.log 4, Real.log 2, Real.log 4] = Real.log 4 := by
    simp [goMax, max_eq_left h24]
  have e24 : Real.exp (Real.log 2 - Real.log 4) = 1 / 2 := by
    rw [Real.exp_sub, Real.exp_log (by norm_num), Real.exp_log (by norm_num)]
    norm_num
  have e44 : Real.exp (Real.log 4 - Real.log 4) = 1 := by
    rw [sub_self, Real.exp_zero]
  show softmaxLossGrad [Real.log 4, Real.log 2, Real.log 4] [0, 1, 0] ++
      dampedData (1/10) (softmaxLossHessian [Real.log 4, Real.log 2, Real.log 4] [0, 1, 0]) = _
  have hgrad : softmaxLossGrad [Real.log 4, Real.log 2, Real.log 4] [0, 1, 0] =
      [2/5, -(4/5), 2/5] := by
    rw [softmaxLossGrad, hmax]
    simp [e24, e44]
    norm_num
  have hhess : dampedData (1/10)
      (softmaxLossHessian [Real.log 4, Real.log 2, Real.log 4] [0, 1, 0]) =
      [17/50, -(2/25), -(4/25), -(2/25), 13/50, -(2/25), -(4/25), -(2/25), 17/50] := by
    rw [softmaxLossHessian, hmax]
    simp only [List.map_cons, List.map_nil, e24, e44, List.length_cons, List.length_nil]
    rw [dampedData]
    norm_num [List.range_succ]
  rw [hgrad, hhess]
  rfl

theorem c7vec2 : hessSampleVector c7Heur c7s2 =
    [4/9, -(5/9), 1/9, 281/810, -(16/81), -(4/81), -(16/81), 281/810, -(4/81),
      -(4/81), -(4/81), 161/810] := by
  have h04 : (0 : ℝ) ≤ Real.log 4 := Real.log_nonneg (by norm_num)
  have hmax : goMax [Real.log 4, Real.log 4, 0] = Real.log 4 := by
    simp [goMax, max_eq_left h04]
  have e04 : Real.exp (0 - Real.log 4) = 1 / 4 := by
    rw [zero_sub, Real.exp_neg, Real.exp_log (by norm_num)]
    norm_num
  have e04n : Real.exp (-Real.log 4) = 1 / 4 := by
    rw [Real.exp_neg, Real.exp_log (by norm_num)]
    norm_num
  have e44 : Real.exp (Real.log 4 - Real.log 4) = 1 := by
    rw [sub_self, Real.exp_zero]
  show softmaxLossGrad [Real.log 4, Real.log 4, 0] [0, 1, 0] ++
      dampedData (1/10) (softmaxLossHessian [Real.log 4, Real.log 4, 0] [0, 1, 0]) = _
  have hgrad : softmaxLossGrad [Real.log 4, Real.log 4, 0] [0, 1, 0] =
      [4/9, -(5/9), 1/9] := by
    rw [softmaxLossGrad, hmax]
    simp [e04, e04n, e44]
    norm_num
  have hhess : dampedData (1/10)
      (softmaxLossHessian [Real.log 4, Real.log 4, 0] [0, 1, 0]) =
      [281/810, -(16/81), -(4/81), -(16/81), 281/810, -(4/81), -(4/81), -(4/81), 161/810] := by
    rw [softmaxLossHessian, hmax]
    simp only [List.map_cons, List.map_nil, e04, e04n, e44, List.length_cons, List.length_nil]
    rw [dampedData]
    norm_num [List.range_succ]
  rw [hgrad, hhess]
  rfl

theorem inferDimension_twelve : inferDimension 12 = some 3 := by
  have h := inferDimension_valid 3
  norm_num at h
  exact h

set_option maxRecDepth 8000 in
theorem c7q0 : hessQuality (K := ℝ)
    [3/10, -(7/10), 2/5, 31/100, -(9/100), -(3/25), -(9/100), 31/100, -(3/25),
      -(3/25), -(3/25), 17/50] =
    some (7782508062580863374 / 8785163226314080607) := by
  rw [hessQuality, hessMinimize]
  rw [show (([3/10, -(7/10), 2/5, 31/100, -(9/100), -(3/25), -(9/100), 31/100, -(3/25),
      -(3/25), -(3/25), 17/50] : List ℝ)).length = 12 from rfl, inferDimension_twelve]
  norm_num [applyInverse, applyInverseGo, applyH, subV, normSq, dotV, List.range_succ]

set_option maxRecDepth 8000 in
theorem c7q12 : hessQuality (K := ℝ)
    [38/45, -(61/45), 23/45, 1391/2025, -(562/2025), -(424/2025), -(562/2025), 1229/2025,
      -(262/2025), -(424/2025), -(262/2025), 1091/2025] =
    some (303214656823139635814991717819464054513664608 /
      178248228252020531906953189015570784243905379) := by
  rw [hessQuality, hessMinimize]
  rw [show (([38/45, -(61/45), 23/45, 1391/2025, -(562/2025), -(424/2025), -(562/2025),
      1229/2025, -(262/2025), -(424/2025), -(262/2025), 1091/2025] : List ℝ)).length = 12
      from rfl, inferDimension_twelve]
  norm_num [applyInverse, applyInverseGo, applyH, subV, normSq, dotV, List.range_succ]

set_option maxRecDepth 8000 in
theorem c7qtot : hessQuality (K := ℝ)
    [103/90, -(37/18), 41/45, 323/324, -(2977/8100), -(667/2025), -(2977/8100), 7427/8100,
      -(101/405), -(667/2025), -(101/405), 3559/4050] =
    some (30730192774887565768418135050122580105052012692176811925 /
      11878912821162866261743037574241808914384928470485465992) := by
  rw [hessQuality, hessMinimize]
  rw [show (([103/90, -(37/18), 41/45, 323/324, -(2977/8100), -(667/2025), -(2977/8100),
      7427/8100, -(101/405), -(667/2025), -(101/405), 3559/4050] : List ℝ)).length = 12
      from rfl, inferDimension_twelve]
  norm_num [applyInverse, applyInverseGo, applyH, subV, normSq, dotV, List.range_succ]

/-- C7 fails for the Hessian heuristic: the quality goes through the
inexact iterative solve of `Hessian.ApplyInverse`, and on this concrete
3-dimensional softmax sample set (damping 0.1), partitioned into
`{s0} ⊎ {s1, s2}`, the summed part qualities are strictly BELOW the
whole-set quality. -/
theorem claim_C7_counterexample :
    ∃ q1 q2 q : ℝ,
      hessQuality (vecSum ([c7s0].map (hessSampleVector c7Heur))) = some q1 ∧
      hessQuality (vecSum ([c7s1, c7s2].map (hessSampleVector c7Heur))) = some q2 ∧
      hessQuality (vecSum (([c7s0] ++ [c7s1, c7s2]).map (hessSampleVector c7Heur))) = some q ∧
      q1 + q2 < q := by
  have h12 : vecSum ([c7s1, c7s2].map (hessSampleVector c7Heur)) =
      [38/45, -(61/45), 23/45, 1391/2025, -(562/2025), -(424/2025), -(562/2025), 1229/2025,
        -(262/2025), -(424/2025), -(262/2025), 1091/2025] := by
    show vadd (hessSampleVector c7Heur c7s1) (hessSampleVector c7Heur c7s2) = _
    rw [c7vec1, c7vec2]
    norm_num [vadd]
  have htot : vecSum (([c7s0] ++ [c7s1, c7s2]).map (hessSampleVector c7Heur)) =
      [103/90, -(37/18), 41/45, 323/324, -(2977/8100), -(667/2025), -(2977/8100), 7427/8100,
        -(101/405), -(667/2025), -(101/405), 3559/4050] := by
    show vadd (hessSampleVector c7Heur c7s0)
      (vadd (hessSampleVector c7Heur c7s1) (hessSampleVector c7Heur c7s2)) = _
    rw [c7vec0, c7vec1, c7vec2]
    norm_num [vadd]
  have h0 : vecSum ([c7s0].map (hessSampleVector c7Heur)) =
      [3/10, -(7/10), 2/5, 31/100, -(9/100), -(3/25), -(9/100), 31/100, -(3/25),
        -(3/25), -(3/25), 17/50] := by
    show hessSampleVector c7Heur c7s0 = _
    exact c7vec0
  refine ⟨_, _, _, by rw [h0]; exact c7q0, by rw [h12]; exact c7q12,
    by rw [htot]; exact c7qtot, by norm_num⟩

/-! ## IEEE float-value model

Claims C9 and C10 are about IEEE special values (overflow to infinity,
NaN).  `FV` models a 64-bit float as either an exact real, a signed
infinity, or NaN: finite arithmetic is exact except that a result whose
magnitude exceeds the largest finite float64 (`maxF = (2^53-1)·2^971`)
overflows to the signed infinity, and the IEEE special-value propagation
rules (∞-∞ = NaN, ∞/∞ = NaN, 0·∞ = NaN, x/∞ = 0, x/0 = ±∞, 0/0 = NaN)
are applied.  Rounding and signed zeros are idealised away. -/

/-- A float value: finite (exact real), an infinity, or NaN. -/
inductive FV where
  | fin (x : ℝ)
  | pinf
  | ninf
  | nan

/-- The largest finite float64. -/
noncomputable def maxF : ℝ := (2 ^ 53 - 1) * 2 ^ 971

/-- Overflow-checked packaging of an exact finite result. -/
noncomputable def FV.pack (x : ℝ) : FV :=
  if maxF < x then .pinf else if x < -maxF then .ninf else .fin x

/-- Float negation. -/
def FV.neg : FV → FV
  | .fin x => .fin (-x)
  | .pinf => .ninf
  | .ninf => .pinf
  | .nan => .nan

/-- Float addition. -/
noncomputable def FV.add : FV → FV → FV
  | .nan, _ => .nan
  | _, .nan => .nan
  | .pinf, .ninf => .nan
  | .ninf, .pinf => .nan
  | .pinf, _ => .pinf
  | _, .pinf => .pinf
  | .ninf, _ => .ninf
  | _, .ninf => .ninf
  | .fin a, .fin b => FV.pack (a + b)

/-- Float subtraction. -/
noncomputable def FV.sub (a b : FV) : FV := a.add b.neg

/-- Float multiplication. -/
noncomputable def FV.mul : FV → FV → FV
  | .nan, _ => .nan
  | _, .nan => .nan
  | .pinf, .pinf => .pinf
  | .pinf, .ninf => .ninf
  | .ninf, .pinf => .ninf
  | .ninf, .ninf => .pinf
  | .pinf, .fin b => if b = 0 then .nan else if 0 < b then .pinf else .ninf
  | .ninf, .fin b => if b = 0 then .nan else if 0 < b then .ninf else .pinf
  | .fin a, .pinf => if a = 0 then .nan else if 0 < a then .pinf else .ninf
  | .fin a, .ninf => if a = 0 then .nan else if 0 < a then .ninf else .pinf
  | .fin a, .fin b => FV.pack (a * b)

/-- Float division. -/
noncomputable def FV.div : FV → FV → FV
  | .nan, _ => .nan
  | _, .nan => .nan
  | .pinf, .pinf => .nan
  | .pinf, .ninf => .nan
  | .ninf, .pinf => .nan
  | .ninf, .ninf => .nan
  | .fin _, .pinf => .fin 0
  | .fin _, .ninf => .fin 0
  | .pinf, .fin b => if 0 ≤ b then .pinf else .ninf
  | .ninf, .fin b => if 0 ≤ b then .ninf else .pinf
  | .fin a, .fin b =>
    if b = 0 then (if a = 0 then .nan else if 0 < a then .pinf else .ninf)
    else FV.pack (a / b)

/-- Finiteness test. -/
def FV.finite : FV → Bool
  | .fin _ => true
  | _ => false

/-- C10: `GradientHeuristic.LeafOutput`'s division in float semantics —
no zero guard on the count channel. -/
noncomputable def gradLeafOutputFV (gradSum : List ℝ) : Option (List FV) :=
  match gradSum with
  | [] => none
  | count :: g =>
    let s := FV.div (.fin (-1)) (.fin count)
    some (g.map (fun x => FV.mul (.fin x) s))

theorem maxF_pos : (0 : ℝ) < maxF := by
  rw [maxF]
  positivity

/-- C10: on any aggregate whose leading count channel is zero (and which
has at least one gradient channel), the scale factor `-1/count` is the
non-finite value `-∞`, every entry of the returned output delta is
non-finite (`±∞` for non-zero gradient entries, NaN for zero ones), while
`Quality` on the same aggregate returns exactly 0. -/
theorem claim_C10 (v : List ℝ) (hd : v.head? = some 0) (hlen : 2 ≤ v.length) :
    FV.div (.fin (-1)) (.fin 0) = FV.ninf ∧
    (∃ out, gradLeafOutputFV v = some out ∧ out ≠ [] ∧
      ∀ y ∈ out, y.finite = false) ∧
    gradQuality v = some 0 := by
  have hdiv : FV.div (.fin (-1)) (.fin 0) = FV.ninf := by
    rw [FV.div]
    norm_num
  rcases v with _ | ⟨c, g⟩
  · simp at hd
  have hc : c = 0 := by simpa using hd
  subst hc
  refine ⟨hdiv, ⟨g.map (fun x => FV.mul (.fin x) (FV.div (.fin (-1)) (.fin 0))), rfl, ?_, ?_⟩, ?_⟩
  · rcases g with _ | ⟨x, g'⟩
    · simp at hlen
    · simp
  · intro y hy
    obtain ⟨x, _, rfl⟩ := List.mem_map.mp hy
    rw [hdiv]
    rcases lt_trichotomy x 0 with hx | hx | hx
    · rw [FV.mul, if_neg (ne_of_lt hx), if_neg (by exact not_lt_of_lt hx)]
      rfl
    · subst hx
      rw [FV.mul, if_pos rfl]
      rfl
    · rw [FV.mul, if_neg (ne_of_gt hx), if_pos hx]
      rfl
  · rw [gradQuality, if_pos rfl]

/-- Witness for `claim_C10` at the concrete aggregate `[0, 5]`. -/
theorem claim_C10_witness :
    FV.div (.fin (-1)) (.fin 0) = FV.ninf ∧
    (∃ out, gradLeafOutputFV [0, 5] = some out ∧ out ≠ [] ∧
      ∀ y ∈ out, y.finite = false) ∧
    gradQuality [0, 5] = some 0 :=
  claim_C10 [0, 5] rfl (by norm_num)

/-! ## Polynomials and the sigmoid loss polynomials (claim C6)

Embedding of the `Polynomial` type of src/math_types.go and of
`Sigmoid.LossPolynomials` / `PolynomialHeuristic.SampleVector`.  This
section uses the exact-real semantics; claim C9's `FV` variant of
`newPolynomialLogSigmoid` captures the overflow/NaN handling, which
never fires in exact-real arithmetic. -/

/-- Embedding of `Polynomial.FlipX` (src/math_types.go lines 138-148):
negate the odd-degree coefficients. -/
def polyFlipX (p : List ℝ) : List ℝ :=
  List.zipWith (fun i x => if i % 2 = 1 then -x else x) (List.range p.length) p

/-- Embedding of `Polynomial.Add` (src/math_types.go lines 151-160):
zero-pad the shorter polynomial. -/
def polyAdd (p p1 : List ℝ) : List ℝ :=
  (List.range (max p.length p1.length)).map (fun i => p.getD i 0 + p1.getD i 0)

/-- Embedding of `Polynomial.Scale` (src/math_types.go lines 163-169). -/
def polyScale (s : ℝ) (p : List ℝ) : List ℝ := p.map (fun x => x * s)

/-- Embedding of `newPolynomialLogSigmoid` (src/math_types.go lines
62-124) in exact-real semantics: the 10-term Taylor expansion of
`a ↦ log σ(x+a)` at `a = 0`.  In exact arithmetic `exp` never overflows
and no coefficient is NaN, so the clamp and NaN-replacement branches of
the source are never taken; see `newPolynomialLogSigmoidFV` for the
float-value behaviour that claim C9 is about. -/
noncomputable def polynomialLogSigmoid (x : ℝ) : List ℝ :=
  let exp := Real.exp x
  let invExp := Real.exp (-x)
  let logValue := if -22 < x then Real.log (1 / (1 + invExp)) else x
  let exp2 := exp * exp
  let exp3 := exp2 * exp
  let exp4 := exp2 * exp2
  let exp5 := exp3 * exp2
  let exp6 := exp3 * exp3
  let exp7 := exp4 * exp3
  let expP := exp + 1
  let expP2 := expP * expP
  let expP3 := expP2 * expP
  let expP4 := expP2 * expP2
  let expP5 := expP4 * expP
  let expP6 := expP3 * expP3
  let expP7 := expP4 * expP3
  let expP8 := expP4 * expP4
  let expP9 := expP5 * expP4
  [logValue,
   1 / expP,
   -1 / 2 * exp / expP2,
   1 / 6 * exp * (exp - 1) / expP3,
   -1 / 24 * exp * (-4 * exp + exp2 + 1) / expP4,
   1 / 120 * exp * (11 * exp - 11 * exp2 + exp3 - 1) / expP5,
   -1 / 720 * exp * (-26 * exp + 66 * exp2 - 26 * exp3 + exp4 + 1) / expP6,
   1 / 5040 * exp * (57 * exp - 302 * exp2 + 302 * exp3 - 57 * exp4 + exp5 - 1) / expP7,
   -1 / 40320 * exp *
     (-120 * exp + 1191 * exp2 - 2416 * exp3 + 1191 * exp4 - 120 * exp5 + exp6 + 1) / expP8,
   1 / 362880 * exp *
     (247 * exp - 4293 * exp2 + 15619 * exp3 - 15619 * exp4 + 4293 * exp5 - 247 * exp6 +
       exp7 - 1) / expP9]

/-- Embedding of `Sigmoid.LossPolynomials` (src/loss.go lines 268-277):
per coordinate, `-(t·p(x) + (1-t)·flip_x(p(-x)))` with
`p = newPolynomialLogSigmoid`.  No constant-term clearing happens here. -/
noncomputable def sigmoidLossPolynomials (outputs targets : List ℝ) : List (List ℝ) :=
  List.zipWith (fun x t =>
    polyScale (-1) (polyAdd (polyScale t (polynomialLogSigmoid x))
      (polyScale (1 - t) (polyFlipX (polynomialLogSigmoid (-x)))))) outputs targets

/-- Embedding of `PolynomialHeuristic.SampleVector` (src/features.go lines
146-155, `Loss = Sigmoid`, the only `PolynomialLossFunc` in the source):
for each loss polynomial the constant term is replaced by 0 and the
remaining coefficients are appended. -/
noncomputable def polySampleVector (ts : TimestepB) : List ℝ :=
  ((sigmoidLossPolynomials ts.output ts.target).map (fun p => 0 :: p.drop 1)).flatten

/-- C6 (amended): `Sigmoid.LossPolynomials(o, t)` returns, per coordinate,
the polynomial `-(t·p(o_i) + (1-t)·flip_x(p(-o_i)))` where `p` is the
10-term `polynomial_log_sigmoid` expansion — WITHOUT clearing the constant
term; the constant term is cleared one layer up, by
`PolynomialHeuristic.SampleVector`, which replaces every polynomial's
leading coefficient with zero. -/
theorem claim_C6 (ts : TimestepB) :
    sigmoidLossPolynomials ts.output ts.target =
      List.zipWith (fun x t =>
        polyScale (-1) (polyAdd (polyScale t (polynomialLogSigmoid x))
          (polyScale (1 - t) (polyFlipX (polynomialLogSigmoid (-x))))))
        ts.output ts.target ∧
    polySampleVector ts =
      ((sigmoidLossPolynomials ts.output ts.target).map (fun p => 0 :: p.drop 1)).flatten ∧
    ∀ p ∈ (sigmoidLossPolynomials ts.output ts.target).map (fun p => 0 :: p.drop 1),
      p.headD 0 = 0 := by
  refine ⟨rfl, rfl, ?_⟩
  intro p hp
  obtain ⟨q, _, rfl⟩ := List.mem_map.mp hp
  rfl

/-- The constant coefficient of `polynomialLogSigmoid 0` is `log (1/2)`. -/
theorem pls_zero_head : (polynomialLogSigmoid 0).headD 0 = Real.log (1 / 2) := by
  rw [polynomialLogSigmoid]
  simp [Real.exp_zero]
  norm_num

/-- C6 as stated is false: `Sigmoid.LossPolynomials` does NOT clear the
constant term — at output `[0]`, target `[1]` the returned polynomial's
constant coefficient is `log 2 ≠ 0` (clearing only happens later in
`PolynomialHeuristic.SampleVector`). -/
theorem claim_C6_counterexample :
    ¬ (∀ p ∈ sigmoidLossPolynomials [0] [1], p.headD 0 = 0) := by
  intro h
  have hmem : polyScale (-1) (polyAdd (polyScale 1 (polynomialLogSigmoid 0))
      (polyScale (1 - 1) (polyFlipX (polynomialLogSigmoid (-0))))) ∈
      sigmoidLossPolynomials [0] [1] := by
    simp [sigmoidLossPolynomials]
  have hval := h _ hmem
  have hlog : (polyScale (-1) (polyAdd (polyScale 1 (polynomialLogSigmoid 0))
      (polyScale (1 - 1) (polyFlipX (polynomialLogSigmoid (-0)))))).headD 0 = Real.log 2 := by
    rw [neg_zero]
    simp [polyScale, polyAdd, polyFlipX, polynomialLogSigmoid, Real.exp_zero, List.range_succ]
    norm_num [Real.log_inv]
  rw [hval] at hlog
  exact absurd hlog.symm (ne_of_gt (Real.log_pos (by norm_num)))

/-- Witness for `claim_C6`: a concrete one-coordinate sample's cleared
polynomial block has constant term 0. -/
theorem claim_C6_witness :
    (0 :: (polyScale (-1) (polyAdd (polyScale 1 (polynomialLogSigmoid 0))
      (polyScale (1 - 1) (polyFlipX (polynomialLogSigmoid (-0)))))).drop 1).headD 0 = 0 := by
  have h := (claim_C6 ⟨⟨0, []⟩, [0], [1]⟩).2.2
  exact h _ (by simp [sigmoidLossPolynomials])

/-! ## Float-value construction of the log-sigmoid polynomial (claim C9)

Embedding of `newPolynomialLogSigmoid` (src/math_types.go lines 62-124)
over the float-value model `FV`: `math.Exp` overflows to `+∞` past the
largest finite float64, the overflowed exponential is clamped to `2³²`,
the constant coefficient selects between `log σ(x)` and `x` at the
`x > -22` boundary, and NaN coefficients are replaced by zero.  The
float64→float32 conversion of the result is idealised as the identity. -/

/-- `math.IsInf(v, 1)`. -/
def FV.isPInf : FV → Bool
  | .pinf => true
  | _ => false

/-- `math.IsNaN(v)`. -/
def FV.isNaN : FV → Bool
  | .nan => true
  | _ => false

/-- `math.Log` on a float value. -/
noncomputable def logFV : FV → FV
  | .fin a => if a < 0 then .nan else if a = 0 then .ninf else .fin (Real.log a)
  | .pinf => .pinf
  | .ninf => .nan
  | .nan => .nan

/-- The clamping prologue of `newPolynomialLogSigmoid` (src/math_types.go
lines 64-72): compute `exp(x)` and `exp(-x)`; if `exp(x)` overflowed,
clamp it to `2³²`, else if `exp(-x)` overflowed, clamp that. -/
noncomputable def clampedExps (x : ℝ) : FV × FV :=
  let exp0 := FV.pack (Real.exp x)
  let invExp0 := FV.pack (Real.exp (-x))
  (if exp0.isPInf then FV.fin (2 ^ 32) else exp0,
   if exp0.isPInf then invExp0 else if invExp0.isPInf then FV.fin (2 ^ 32) else invExp0)

/-- The constant coefficient (src/math_types.go lines 74-79): `log σ(x)`
when `x > -22`, else `x` itself. -/
noncomputable def logValueFV (x : ℝ) : FV :=
  if -22 < x then logFV (FV.div (FV.fin 1) (FV.add (FV.fin 1) (clampedExps x).2))
  else FV.fin x

/-- The raw (pre-NaN-replacement) coefficient list `res64` of
`newPolynomialLogSigmoid` (src/math_types.go lines 100-111), with Go's
left-associated evaluation order. -/
noncomputable def pls64FV (x : ℝ) : List FV :=
  let exp := (clampedExps x).1
  let exp2 := FV.mul exp exp
  let exp3 := FV.mul exp2 exp
  let exp4 := FV.mul exp2 exp2
  let exp5 := FV.mul exp3 exp2
  let exp6 := FV.mul exp3 exp3
  let exp7 := FV.mul exp4 exp3
  let expP := FV.add exp (FV.fin 1)
  let expP2 := FV.mul expP expP
  let expP3 := FV.mul expP2 expP
  let expP4 := FV.mul expP2 expP2
  let expP5 := FV.mul expP4 expP
  let expP6 := FV.mul expP3 expP3
  let expP7 := FV.mul expP4 expP3
  let expP8 := FV.mul expP4 expP4
  let expP9 := FV.mul expP5 expP4
  [logValueFV x,
   FV.div (FV.fin 1) expP,
   FV.div (FV.mul (FV.fin (-1 / 2)) exp) expP2,
   FV.div (FV.mul (FV.mul (FV.fin (1 / 6)) exp) (FV.sub exp (FV.fin 1))) expP3,
   FV.div (FV.mul (FV.mul (FV.fin (-1 / 24)) exp)
     (FV.add (FV.add (FV.mul (FV.fin (-4)) exp) exp2) (FV.fin 1))) expP4,
   FV.div (FV.mul (FV.mul (FV.fin (1 / 120)) exp)
     (FV.sub (FV.add (FV.sub (FV.mul (FV.fin 11) exp) (FV.mul (FV.fin 11) exp2)) exp3)
       (FV.fin 1))) expP5,
   FV.div (FV.mul (FV.mul (FV.fin (-1 / 720)) exp)
     (FV.add (FV.add (FV.sub (FV.add (FV.mul (FV.fin (-26)) exp) (FV.mul (FV.fin 66) exp2))
       (FV.mul (FV.fin 26) exp3)) exp4) (FV.fin 1))) expP6,
   FV.div (FV.mul (FV.mul (FV.fin (1 / 5040)) exp)
     (FV.sub (FV.add (FV.sub (FV.add (FV.sub (FV.mul (FV.fin 57) exp)
       (FV.mul (FV.fin 302) exp2)) (FV.mul (FV.fin 302) exp3)) (FV.mul (FV.fin 57) exp4))
       exp5) (FV.fin 1))) expP7,
   FV.div (FV.mul (FV.mul (FV.fin (-1 / 40320)) exp)
     (FV.add (FV.add (FV.sub (FV.add (FV.sub (FV.add (FV.mul (FV.fin (-120)) exp)
       (FV.mul (FV.fin 1191) exp2)) (FV.mul (FV.fin 2416) exp3)) (FV.mul (FV.fin 1191) exp4))
       (FV.mul (FV.fin 120) exp5)) exp6) (FV.fin 1))) expP8,
   FV.div (FV.mul (FV.mul (FV.fin (1 / 362880)) exp)
     (FV.sub (FV.add (FV.sub (FV.add (FV.sub (FV.add (FV.sub (FV.mul (FV.fin 247) exp)
       (FV.mul (FV.fin 4293) exp2)) (FV.mul (FV.fin 15619) exp3))
       (FV.mul (FV.fin 15619) exp4)) (FV.mul (FV.fin 4293) exp5))
       (FV.mul (FV.fin 247) exp6)) exp7) (FV.fin 1))) expP9]

/-- Embedding of `newPolynomialLogSigmoid` over float values: the raw
coefficients with every NaN replaced by zero (src/math_types.go lines
112-123). -/
noncomputable def newPolynomialLogSigmoidFV (x : ℝ) : List FV :=
  (pls64FV x).map (fun c => if c.isNaN then FV.fin 0 else c)

theorem exp_le_maxF_of_le_22 (y : ℝ) (h : y ≤ 22) : Real.exp y ≤ maxF := by
  have h22 : Real.exp (22 : ℝ) = Real.exp 1 ^ 22 := by
    rw [show ((22 : ℝ)) = ((22 : ℕ) : ℝ) * 1 by norm_num, Real.exp_nat_mul]
  have hb : Real.exp (22 : ℝ) ≤ (3 : ℝ) ^ 22 := by
    rw [h22]
    apply pow_le_pow_left (le_of_lt (Real.exp_pos 1))
    linarith [Real.exp_one_lt_d9]
  refine le_trans (le_trans (Real.exp_le_exp.mpr h) hb) ?_
  rw [maxF]
  norm_num

theorem pack_fin (y : ℝ) (h1 : y ≤ maxF) (h2 : -maxF ≤ y) : FV.pack y = FV.fin y := by
  rw [FV.pack, if_neg (not_lt.mpr h1), if_neg (not_lt.mpr h2)]

theorem pack_pinf (y : ℝ) (h : maxF < y) : FV.pack y = FV.pinf := by
  rw [FV.pack, if_pos h]

theorem clampedExps_snd (x : ℝ) (h : Real.exp (-x) ≤ maxF) :
    (clampedExps x).2 = FV.fin (Real.exp (-x)) := by
  rw [clampedExps]
  have hfin : FV.pack (Real.exp (-x)) = FV.fin (Real.exp (-x)) :=
    pack_fin _ h (le_trans (by rw [maxF]; norm_num) (le_of_lt (Real.exp_pos _)))
  simp only [hfin]
  by_cases hp : (FV.pack (Real.exp x)).isPInf = true
  · simp [hp]
  · simp [hp, FV.isPInf]

/-- C9: (1) when `exp(x)` overflows it is clamped to `2³²` (and `exp(-x)`
is then left alone); when only `exp(-x)` overflows, it is the one clamped;
(2) the constant coefficient is exactly `log σ(x)` for `x > -22` and `x`
itself otherwise; (3) any raw coefficient that evaluates to NaN is
replaced by zero in the returned polynomial. -/
theorem claim_C9 :
    (∀ x : ℝ, maxF < Real.exp x →
      (clampedExps x).1 = FV.fin (2 ^ 32) ∧ (clampedExps x).2 = FV.pack (Real.exp (-x))) ∧
    (∀ x : ℝ, Real.exp x ≤ maxF → maxF < Real.exp (-x) →
      (clampedExps x).1 = FV.fin (Real.exp x) ∧ (clampedExps x).2 = FV.fin (2 ^ 32)) ∧
    (∀ x : ℝ, -22 < x → (newPolynomialLogSigmoidFV x).head? =
      some (FV.fin (Real.log (1 / (1 + Real.exp (-x)))))) ∧
    (∀ x : ℝ, x ≤ -22 → (newPolynomialLogSigmoidFV x).head? = some (FV.fin x)) ∧
    (∀ (x : ℝ) (i : ℕ), (pls64FV x).get? i = some FV.nan →
      (newPolynomialLogSigmoidFV x).get? i = some (FV.fin 0)) := by
  have hfinexp : ∀ x : ℝ, Real.exp x ≤ maxF → FV.pack (Real.exp x) = FV.fin (Real.exp x) :=
    fun x hx => pack_fin _ hx (le_trans (by rw [maxF]; norm_num) (le_of_lt (Real.exp_pos _)))
  refine ⟨fun x hx => ?_, fun x hx hnx => ?_, fun x hx => ?_, fun x hx => ?_, fun x i h => ?_⟩
  · rw [clampedExps]
    have hp : FV.pack (Real.exp x) = FV.pinf := pack_pinf _ hx
    simp [hp, FV.isPInf]
  · rw [clampedExps]
    have hp : FV.pack (Real.exp x) = FV.fin (Real.exp x) := hfinexp x hx
    have hq : FV.pack (Real.exp (-x)) = FV.pinf := pack_pinf _ hnx
    simp [hp, hq, FV.isPInf]
  · have hinv : Real.exp (-x) ≤ maxF := exp_le_maxF_of_le_22 (-x) (by linarith)
    have hsnd := clampedExps_snd x hinv
    have hlog : logValueFV x = FV.fin (Real.log (1 / (1 + Real.exp (-x)))) := by
      rw [logValueFV, if_pos hx, hsnd]
      have hpos : (0 : ℝ) < 1 + Real.exp (-x) := by positivity
      have hadd : FV.add (FV.fin 1) (FV.fin (Real.exp (-x))) =
          FV.fin (1 + Real.exp (-x)) := by
        rw [FV.add]
        refine pack_fin _ ?_
          (le_trans (show -maxF ≤ (0 : ℝ) by rw [maxF]; norm_num) (by positivity))
        have h22 : Real.exp (22 : ℝ) = Real.exp 1 ^ 22 := by
          rw [show ((22 : ℝ)) = ((22 : ℕ) : ℝ) * 1 by norm_num, Real.exp_nat_mul]
        have hmono : Real.exp (-x) ≤ Real.exp (22 : ℝ) :=
          Real.exp_le_exp.mpr (by linarith)
        have hb : Real.exp (-x) ≤ (3 : ℝ) ^ 22 := by
          refine le_trans hmono ?_
          rw [h22]
          apply pow_le_pow_left (le_of_lt (Real.exp_pos 1))
          linarith [Real.exp_one_lt_d9]
        calc 1 + Real.exp (-x) ≤ 1 + (3 : ℝ) ^ 22 := by linarith
          _ ≤ maxF := by rw [maxF]; norm_num
      rw [hadd, FV.div, if_neg (ne_of_gt hpos)]
      have hval : FV.pack (1 / (1 + Real.exp (-x))) = FV.fin (1 / (1 + Real.exp (-x))) := by
        refine pack_fin _ ?_
          (le_trans (show -maxF ≤ (0 : ℝ) by rw [maxF]; norm_num) (by positivity))
        have hle1 : 1 / (1 + Real.exp (-x)) ≤ 1 := by
          rw [div_le_one hpos]
          linarith [Real.exp_pos (-x)]
        calc 1 / (1 + Real.exp (-x)) ≤ 1 := hle1
          _ ≤ maxF := by rw [maxF]; norm_num
      rw [hval, logFV]
      have hvpos : (0 : ℝ) < 1 / (1 + Real.exp (-x)) := by positivity
      rw [if_neg (not_lt.mpr (le_of_lt hvpos)), if_neg (ne_of_gt hvpos)]
    show some (if (logValueFV x).isNaN then FV.fin 0 else logValueFV x) = _
    rw [hlog]
    rfl
  · have hlog : logValueFV x = FV.fin x := by
      rw [logValueFV, if_neg (by linarith)]
    show some (if (logValueFV x).isNaN then FV.fin 0 else logValueFV x) = _
    rw [hlog]
    rfl
  · rw [newPolynomialLogSigmoidFV]
    simp only [List.get?_eq_getElem?] at h ⊢
    rw [List.getElem?_map, h]
    rfl

theorem clampedExps_fst (x : ℝ) (h : Real.exp x ≤ maxF) :
    (clampedExps x).1 = FV.fin (Real.exp x) := by
  rw [clampedExps]
  have hp : FV.pack (Real.exp x) = FV.fin (Real.exp x) :=
    pack_fin _ h (le_trans (by rw [maxF]; norm_num) (le_of_lt (Real.exp_pos _)))
  simp [hp, FV.isPInf]

theorem exp800_overflow : maxF < Real.exp (800 : ℝ) := by
  have h8 : Real.exp (800 : ℝ) = Real.exp 1 ^ 800 := by
    rw [show ((800 : ℝ)) = ((800 : ℕ) : ℝ) * 1 by norm_num, Real.exp_nat_mul]
  have hb : ((5 : ℝ) / 2) ^ 800 ≤ Real.exp (800 : ℝ) := by
    rw [h8]
    apply pow_le_pow_left (by norm_num)
    linarith [Real.exp_one_gt_d9]
  refine lt_of_lt_of_le ?_ hb
  rw [maxF]
  norm_num

theorem exp600_pow : Real.exp (600 : ℝ) = Real.exp 1 ^ 600 := by
  rw [show ((600 : ℝ)) = ((600 : ℕ) : ℝ) * 1 by norm_num, Real.exp_nat_mul]

theorem exp600_le_maxF : Real.exp (600 : ℝ) ≤ maxF := by
  have hb : Real.exp (600 : ℝ) ≤ (3 : ℝ) ^ 600 := by
    rw [exp600_pow]
    apply pow_le_pow_left (le_of_lt (Real.exp_pos 1))
    linarith [Real.exp_one_lt_d9]
  refine le_trans hb ?_
  rw [maxF]
  norm_num

theorem exp600_ge_pow : (2 : ℝ) ^ 600 ≤ Real.exp (600 : ℝ) := by
  rw [exp600_pow]
  apply pow_le_pow_left (by norm_num)
  linarith [Real.exp_one_gt_d9]

theorem exp600_le_pow : Real.exp (600 : ℝ) ≤ (3 : ℝ) ^ 600 := by
  rw [exp600_pow]
  apply pow_le_pow_left (le_of_lt (Real.exp_pos 1))
  linarith [Real.exp_one_lt_d9]

/-- Witness for `claim_C9`: at `x = 800` the exponential overflows and is
clamped; at `x = -800` the inverse exponential is the one clamped; at
`x = 0` the constant coefficient is `log σ(0)` and at `x = -30` it is
`-30`; at `x = 600` the cubic coefficient's formula is `∞/∞ = NaN` and the
returned coefficient is zero. -/
theorem claim_C9_witness :
    (clampedExps 800).1 = FV.fin (2 ^ 32) ∧
    (clampedExps (-800)).2 = FV.fin (2 ^ 32) ∧
    (newPolynomialLogSigmoidFV 0).head? =
      some (FV.fin (Real.log (1 / (1 + Real.exp (-(0 : ℝ)))))) ∧
    (newPolynomialLogSigmoidFV (-30)).head? = some (FV.fin (-30)) ∧
    (pls64FV 600).get? 3 = some FV.nan ∧
    (newPolynomialLogSigmoidFV 600).get? 3 = some (FV.fin 0) := by
  have h9 := claim_C9
  have hof : maxF < Real.exp (800 : ℝ) := exp800_overflow
  have hneg : Real.exp (-800 : ℝ) ≤ maxF :=
    exp_le_maxF_of_le_22 (-800) (by norm_num)
  have hnan : (pls64FV 600).get? 3 = some FV.nan := by
    set e := Real.exp (600 : ℝ) with he
    have hepos : (0 : ℝ) < e := Real.exp_pos _
    have hele : e ≤ maxF := exp600_le_maxF
    have hege : (2 : ℝ) ^ 600 ≤ e := exp600_ge_pow
    have hele3 : e ≤ (3 : ℝ) ^ 600 := exp600_le_pow
    have hcl : (clampedExps 600).1 = FV.fin e := clampedExps_fst 600 hele
    have hm0 : -maxF ≤ (0 : ℝ) := by rw [maxF]; norm_num
    have hmul1 : FV.mul (FV.fin (1 / 6)) (FV.fin e) = FV.fin (1 / 6 * e) := by
      rw [FV.mul]
      exact pack_fin _ (by linarith) (by nlinarith)
    have hsub : FV.sub (FV.fin e) (FV.fin 1) = FV.fin (e + -1) := by
      rw [FV.sub, FV.neg, FV.add]
      exact pack_fin _ (by linarith) (by nlinarith)
    have hmul2 : FV.mul (FV.fin (1 / 6 * e)) (FV.fin (e + -1)) = FV.pinf := by
      rw [FV.mul]
      apply pack_pinf
      have hb : 1 / 6 * (2 : ℝ) ^ 600 * ((2 : ℝ) ^ 600 + -1) ≤ 1 / 6 * e * (e + -1) := by
        apply mul_le_mul (by linarith) (by linarith) (by norm_num) (by positivity)
      refine lt_of_lt_of_le ?_ hb
      rw [maxF]
      norm_num
    have hexpP : FV.add (FV.fin e) (FV.fin 1) = FV.fin (e + 1) := by
      rw [FV.add]
      refine pack_fin _ ?_ (by nlinarith)
      calc e + 1 ≤ (3 : ℝ) ^ 600 + 1 := by linarith
        _ ≤ maxF := by rw [maxF]; norm_num
    have hexpP2 : FV.mul (FV.fin (e + 1)) (FV.fin (e + 1)) = FV.pinf := by
      rw [FV.mul]
      apply pack_pinf
      have hb : (2 : ℝ) ^ 600 * (2 : ℝ) ^ 600 ≤ (e + 1) * (e + 1) := by
        apply mul_le_mul (by linarith) (by linarith) (by positivity) (by linarith)
      refine lt_of_lt_of_le ?_ hb
      rw [maxF]
      norm_num
    have hexpP3 : FV.mul FV.pinf (FV.fin (e + 1)) = FV.pinf := by
      rw [FV.mul, if_neg (by positivity), if_pos (by positivity)]
    show (pls64FV 600).get? 3 = some FV.nan
    rw [pls64FV]
    simp only [← he, hcl, List.get?_cons_succ, List.get?_cons_zero]
    rw [hexpP, hexpP2, hexpP3, hmul1, hsub, hmul2]
    rfl
  refine ⟨(h9.1 800 hof).1, ?_, h9.2.2.1 0 (by norm_num), h9.2.2.2.1 (-30) (by norm_num),
    hnan, h9.2.2.2.2 600 3 hnan⟩
  have := (h9.2.1 (-800) hneg (by rw [neg_neg]; exact hof)).2
  exact this

/-! ## Kahan summation (src/numerical.go)

Over exact reals the Kahan compensation is identically zero, so the
compensated sum collapses to the plain sum; the collapse lemma is used to
express the pruner's per-leaf aggregation. -/

/-- Embedding of `kahanSum` (src/numerical.go lines 29-32). -/
structure kahanSumM where
  sum : List ℝ
  compensation : List ℝ

/-- Embedding of `newKahanSum` (src/numerical.go lines 34-39). -/
def newKahanSumM (dim : ℕ) : kahanSumM :=
  ⟨List.replicate dim 0, List.replicate dim 0⟩

/-- Embedding of `kahanSum.Add` (src/numerical.go lines 41-48):
`n -= comp[i]; s := sum[i] + n; comp[i] = (s - sum[i]) - n; sum[i] = s`. -/
def kahanAdd (k : kahanSumM) (a : List ℝ) : kahanSumM :=
  let n := List.zipWith (fun ai ci => ai - ci) a k.compensation
  let s := List.zipWith (fun si ni => si + ni) k.sum n
  ⟨s, List.zipWith (fun (p : ℝ × ℝ) ni => (p.2 - p.1) - ni) (k.sum.zip s) n⟩

/-- A whole-list Kahan sum with the dimension of the first vector, as the
pruner's `leafSums` builds per leaf. -/
def leafKahan (vs : List (List ℝ)) : List ℝ :=
  (vs.foldl kahanAdd (newKahanSumM (vs.headD []).length)).sum

theorem kahanAdd_zero_comp (s a : List ℝ) (d : ℕ) (hs : s.length = d) (ha : a.length = d) :
    kahanAdd ⟨s, List.replicate d 0⟩ a = ⟨vadd s a, List.replicate d 0⟩ := by
  induction d generalizing s a with
  | zero =>
    rw [List.length_eq_zero] at hs ha
    subst hs
    subst ha
    rfl
  | succ n ih =>
    rcases s with _ | ⟨x, s⟩
    · simp at hs
    rcases a with _ | ⟨y, a⟩
    · simp at ha
    have hs' : s.length = n := by simpa using hs
    have ha' : a.length = n := by simpa using ha
    have hrec := ih s a hs' ha'
    simp only [kahanAdd, List.replicate_succ, List.zipWith_cons_cons, List.zip_cons_cons,
      vadd] at hrec ⊢
    obtain ⟨h1, h2⟩ := kahanSumM.mk.injEq _ _ _ _ ▸ hrec
    refine congrArg₂ kahanSumM.mk ?_ ?_
    · rw [sub_zero]
      exact congrArg₂ List.cons rfl h1
    · rw [sub_zero]
      refine congrArg₂ List.cons (by ring) h2

theorem leafKahan_eq_vecSum (vs : List (List ℝ)) (d : ℕ) (hne : vs ≠ [])
    (hlen : ∀ v ∈ vs, v.length = d) : leafKahan vs = vecSum vs := by
  rcases vs with _ | ⟨v0, rest⟩
  · exact absurd rfl hne
  have hd : (v0 :: rest).headD [] = v0 := rfl
  have hv0 : v0.length = d := hlen v0 (List.mem_cons_self _ _)
  have key : ∀ (l : List (List ℝ)) (s : List ℝ), s.length = d → (∀ v ∈ l, v.length = d) →
      (l.foldl kahanAdd ⟨s, List.replicate d 0⟩).sum = l.foldl (fun acc v => vadd acc v) s := by
    intro l
    induction l with
    | nil => intro s _ _; rfl
    | cons w l ihl =>
      intro s hsl hwl
      have hw : w.length = d := hwl w (List.mem_cons_self _ _)
      rw [List.foldl_cons, kahanAdd_zero_comp s w d hsl hw, List.foldl_cons]
      refine ihl (vadd s w) ?_ (fun v hv => hwl v (List.mem_cons_of_mem _ hv))
      rw [vadd_length, hsl, hw, min_self]
  have hfold : ∀ (l : List (List ℝ)) (s : List ℝ), s.length = d → (∀ v ∈ l, v.length = d) →
      l.foldl (fun acc v => vadd acc v) s = vecSum (s :: l) := by
    intro l
    induction l with
    | nil => intro s _ _; rfl
    | cons w l ihl =>
      intro s hsl hwl
      have hw : w.length = d := hwl w (List.mem_cons_self _ _)
      rw [List.foldl_cons, ihl (vadd s w) (by rw [vadd_length, hsl, hw, min_self])
        (fun v hv => hwl v (List.mem_cons_of_mem _ hv))]
      rcases l with _ | ⟨u, l⟩
      · rfl
      · rw [vecSum_cons (u :: l) (vadd s w) (by simp),
          vecSum_cons (w :: u :: l) s (by simp), vecSum_cons (u :: l) w (by simp), vadd_assoc]
  rw [leafKahan, hd, hv0]
  have hz : kahanSumM.mk (List.replicate d (0 : ℝ)) (List.replicate d 0) = newKahanSumM d := rfl
  rw [List.foldl_cons, ← hz,
    kahanAdd_zero_comp (List.replicate d 0) v0 d (by simp) hv0,
    key rest (vadd (List.replicate d 0) v0) (by rw [vadd_length, hv0]; simp) (fun v hv =>
      hlen v (List.mem_cons_of_mem _ hv)),
    hfold rest (vadd (List.replicate d 0) v0) (by rw [vadd_length, hv0]; simp) (fun v hv =>
      hlen v (List.mem_cons_of_mem _ hv)),
    vadd_zero_left (List.replicate d 0) v0 (by simp) (by simp [hv0])]

/-! ## Generation-B trees and the pruner (src/unnamed/part_012, src/prune.go)

The pruner operates on the union-branch `Tree` of src/unnamed/part_012.  Go
identifies leaves by pointer (the pruner's `leafSums` map is keyed on
`*Leaf` and `pruneLeaf` compares leaf pointers); the model carries an
explicit numeric id on each leaf standing for the pointer, with distinct
ids meaning distinct pointers. -/

/-- Embedding of `Leaf` (src/unnamed/part_012 lines 172-182) plus the id
standing for its Go pointer. -/
structure LeafB where
  id : ℕ
  outputDelta : List ℝ
  feature : ℤ

/-- Embedding of `Tree`/`Branch` (src/unnamed/part_012 lines 117-170): a
leaf, or a branch carrying a `BranchFeatureUnion` and two subtrees. -/
inductive TreeB where
  | leaf (l : LeafB)
  | branch (feature : List BranchFeature) (falseB trueB : TreeB)

/-- The union loop of `Tree.Evaluate` (src/unnamed/part_012 lines 130-134):
features are tested in order and the first true one wins; an empty union is
false.  A panic inside `TimestepSample.BranchFeature` is `none`. -/
def unionEval (ts : TimestepSample) : List BranchFeature → Option Bool
  | [] => some false
  | f :: rest =>
    match ts.branchFeature f with
    | none => none
    | some true => some true
    | some false => unionEval ts rest

/-- Embedding of `Tree.Evaluate` (src/unnamed/part_012 lines 126-136). -/
def TreeB.evaluate (t : TreeB) (ts : TimestepSample) : Option LeafB :=
  match t with
  | .leaf l => some l
  | .branch fs fb tb =>
    match unionEval ts fs with
    | none => none
    | some true => tb.evaluate ts
    | some false => fb.evaluate ts

/-- Modelled from the spec: `Tree.Leaves` is called by the pruner
(src/prune.go line 26) but defined nowhere under src/; per the spec it
enumerates the tree's leaves, here depth-first with the false branch
first. -/
def TreeB.leaves : TreeB → List LeafB
  | .leaf l => [l]
  | .branch _ fb tb => fb.leaves ++ tb.leaves

/-- Modelled from the spec: `Tree.Copy` is called at src/prune.go line 43
but defined nowhere under src/; per the spec it deep-copies the tree, so
every leaf of the copy is a fresh object.  Fresh pointers are modelled by
relabelling the leaves with sequential ids starting from `n`; the second
component is the next unused id. -/
def TreeB.copyFrom : TreeB → ℕ → TreeB × ℕ
  | .leaf l, n => (.leaf ⟨n, l.outputDelta, l.feature⟩, n + 1)
  | .branch fs fb tb, n =>
    let p := fb.copyFrom n
    let q := tb.copyFrom p.2
    (.branch fs p.1 q.1, q.2)

/-- The largest leaf id of a tree, used to pick ids for copies that are
fresh with respect to the input tree. -/
def TreeB.maxId : TreeB → ℕ
  | .leaf l => l.id
  | .branch _ fb tb => max fb.maxId tb.maxId

/-- Whether the tree is precisely the leaf with the given id — the model of
the Go pointer comparisons `t.Leaf == l`, `t.Branch.FalseBranch.Leaf == l`
in `pruneLeaf` (src/prune.go lines 80-98). -/
def TreeB.isLeafWithId : TreeB → ℕ → Bool
  | .leaf l, lid => l.id == lid
  | .branch _ _ _, _ => false

/-- The recursive body of `pruneLeaf` (src/prune.go lines 83-97), reached
only when the root is not the pruned leaf: a child leaf matching the pruned
leaf is elided by promoting its sibling, and a non-matching leaf is
returned unchanged. -/
def pruneLeafGo (lid : ℕ) : TreeB → TreeB
  | .leaf l => .leaf l
  | .branch fs fb tb =>
    if fb.isLeafWithId lid then tb
    else if tb.isLeafWithId lid then fb
    else .branch fs (pruneLeafGo lid fb) (pruneLeafGo lid tb)

/-- Embedding of `pruneLeaf` (src/prune.go lines 80-98): pruning the root
leaf itself panics (`none`). -/
def pruneLeafB (t : TreeB) (lid : ℕ) : Option TreeB :=
  if t.isLeafWithId lid then none else some (pruneLeafGo lid t)

/-- Embedding of the `Heuristic` interface (src/heuristic.go lines 5-32):
a per-sample vector, a quality score for an aggregated vector, and a leaf
output for an aggregated vector. -/
structure HeuristicB where
  sampleVector : TimestepSample → List ℝ
  quality : List ℝ → ℝ
  leafOutput : List ℝ → List ℝ

/-- Embedding of `vecSample` (used throughout src/prune.go and
src/unnamed/part_001 but defined nowhere under src/): a timestep sample
together with its precomputed heuristic vector. -/
structure vecSample where
  sample : TimestepSample
  vector : List ℝ

/-- Modelled from the spec: `newVecSamples` (called at src/prune.go line
23 but defined nowhere under src/) precomputes the heuristic's per-sample
vector for each sample. -/
def newVecSamples (H : HeuristicB) (samples : List TimestepSample) : List vecSample :=
  samples.map (fun s => ⟨s, H.sampleVector s⟩)

/-- The routing pass of `Pruner.leafSums` (src/prune.go lines 65-78): each
sample is evaluated on the tree and tagged with the id of the leaf it
reaches; a panic in `Tree.Evaluate` is `none`. -/
def routeM (t : TreeB) : List vecSample → Option (List (ℕ × List ℝ))
  | [] => some []
  | v :: rest =>
    match t.evaluate v.sample with
    | none => none
    | some lf =>
      match routeM t rest with
      | none => none
      | some routes => some ((lf.id, v.vector) :: routes)

/-- Whether a sample routes to the leaf with the given id. -/
def routesTo (t : TreeB) (v : vecSample) (lid : ℕ) : Bool :=
  match t.evaluate v.sample with
  | some lf => lf.id == lid
  | none => false

/-- The vectors of the samples routed to a given leaf, in sample order —
the contents of the `leafSums` accumulator for that leaf. -/
def routedVecs (t : TreeB) (vs : List vecSample) (lid : ℕ) : List (List ℝ) :=
  (vs.filter (fun v => routesTo t v lid)).map vecSample.vector

/-- Embedding of `Pruner.treeQuality` (src/prune.go lines 49-56): the sum,
over the leaves that received at least one sample (the keys of the
`leafSums` map), of the heuristic quality of that leaf's Kahan-aggregated
vectors.  The outer one-dimensional Kahan accumulator collapses to a plain
sum over exact reals. -/
def treeQualityM (H : HeuristicB) (vs : List vecSample) (t : TreeB) : Option ℝ :=
  (routeM t vs).map (fun routes =>
    ((t.leaves.filter (fun lf => routes.any (fun rt => rt.1 == lf.id))).map
      (fun lf => H.quality (leafKahan
        ((routes.filter (fun rt => rt.1 == lf.id)).map Prod.snd)))).sum)

/-- One candidate step of the selection loop at src/prune.go lines 32-39:
elide the given leaf, score the candidate, and keep it when its quality
strictly beats the best so far (`q > bestQuality`, which starts at `-Inf`,
so the first candidate always wins against an empty accumulator). -/
noncomputable def bestStep (H : HeuristicB) (vs : List vecSample) (t : TreeB)
    (acc : Option (TreeB × ℝ)) (lf : LeafB) : Option (Option (TreeB × ℝ)) :=
  (pruneLeafB t lf.id).bind (fun t1 =>
    (treeQualityM H vs t1).map (fun q =>
      match acc with
      | none => some (t1, q)
      | some bp => if bp.2 < q then some (t1, q) else some bp))

/-- One pruning round (src/prune.go lines 30-40): every leaf yields the
candidate tree with that leaf elided; candidates are scored by
`treeQuality` and the best strictly-improving candidate wins. -/
noncomputable def bestPruneM (H : HeuristicB) (vs : List vecSample) (t : TreeB) :
    Option TreeB :=
  (t.leaves.foldlM (bestStep H vs t) none).bind (fun best => best.map Prod.fst)

/-- The pruning loop of `Pruner.Prune` (src/prune.go lines 25-41), with the
remaining iteration count as fuel: while the tree has more than
`maxLeaves` leaves, replace it by the best one-leaf-elided candidate. -/
noncomputable def pruneLoop (H : HeuristicB) (vs : List vecSample) (maxLeaves : ℤ) :
    ℕ → TreeB → Option TreeB
  | 0, t => if (t.leaves.length : ℤ) ≤ maxLeaves then some t else none
  | n + 1, t =>
    if (t.leaves.length : ℤ) ≤ maxLeaves then some t
    else (bestPruneM H vs t).bind (pruneLoop H vs maxLeaves n)

/-- The per-leaf update of `Pruner.recomputeOutputDeltas` (src/prune.go
lines 58-63): a leaf that is a key of the `leafSums` map (it received at
least one sample) has its output delta replaced by the heuristic's
`LeafOutput` of its Kahan-aggregated vectors; other leaves are
untouched. -/
def recompLeaf (H : HeuristicB) (routes : List (ℕ × List ℝ)) (l : LeafB) : LeafB :=
  if routes.any (fun rt => rt.1 == l.id) then
    ⟨l.id, H.leafOutput (leafKahan ((routes.filter (fun rt => rt.1 == l.id)).map Prod.snd)),
      l.feature⟩
  else l

/-- The in-place leaf mutation of `Pruner.recomputeOutputDeltas`, as a
structural rewrite of the tree. -/
def recomputeGo (H : HeuristicB) (routes : List (ℕ × List ℝ)) : TreeB → TreeB
  | .leaf l => .leaf (recompLeaf H routes l)
  | .branch fs fb tb => .branch fs (recomputeGo H routes fb) (recomputeGo H routes tb)

/-- Embedding of `Pruner.recomputeOutputDeltas` (src/prune.go lines
58-63). -/
def recomputeOutputDeltas (H : HeuristicB) (vs : List vecSample) (t : TreeB) :
    Option TreeB :=
  (routeM t vs).map (fun routes => recomputeGo H routes t)

/-- Embedding of `Pruner.Prune` (src/prune.go lines 19-47).  `MaxLeaves < 1`
panics (`none`); a tree already within the limit is returned itself (the
loop breaks on its first test, so `result == t` and no copy happens);
otherwise the loop prunes until within the limit and — since then
`result != t` — the result is deep-copied and its output deltas are
recomputed.  The fuel `t.leaves.length` bounds the loop's iterations. -/
noncomputable def pruneB (H : HeuristicB) (maxLeaves : ℤ) (samples : List TimestepSample)
    (t : TreeB) : Option TreeB :=
  if maxLeaves < 1 then none
  else if (t.leaves.length : ℤ) ≤ maxLeaves then some t
  else
    (pruneLoop H (newVecSamples H samples) maxLeaves t.leaves.length t).bind (fun r0 =>
      recomputeOutputDeltas H (newVecSamples H samples) ((r0.copyFrom (t.maxId + 1)).1))

theorem copyFrom_counter_le (t : TreeB) (n : ℕ) : n ≤ (t.copyFrom n).2 := by
  induction t generalizing n with
  | leaf l => exact Nat.le_succ n
  | branch fs fb tb ihf iht =>
    simp only [TreeB.copyFrom]
    exact le_trans (ihf n) (iht (fb.copyFrom n).2)

theorem copyFrom_leaf_id_ge (t : TreeB) (n : ℕ) :
    ∀ lf ∈ (t.copyFrom n).1.leaves, n ≤ lf.id := by
  induction t generalizing n with
  | leaf l =>
    intro lf hlf
    simp only [TreeB.copyFrom, TreeB.leaves, List.mem_singleton] at hlf
    subst hlf
    exact le_refl n
  | branch fs fb tb ihf iht =>
    intro lf hlf
    simp only [TreeB.copyFrom, TreeB.leaves, List.mem_append] at hlf
    rcases hlf with h | h
    · exact ihf n lf h
    · exact le_trans (copyFrom_counter_le fb n) (iht (fb.copyFrom n).2 lf h)

theorem leaf_id_le_maxId (t : TreeB) : ∀ lf ∈ t.leaves, lf.id ≤ t.maxId := by
  induction t with
  | leaf l =>
    intro lf hlf
    simp only [TreeB.leaves, List.mem_singleton] at hlf
    subst hlf
    exact le_refl _
  | branch fs fb tb ihf iht =>
    intro lf hlf
    simp only [TreeB.leaves, List.mem_append] at hlf
    simp only [TreeB.maxId]
    rcases hlf with h | h
    · exact le_trans (ihf lf h) (le_max_left _ _)
    · exact le_trans (iht lf h) (le_max_right _ _)

theorem recompLeaf_id (H : HeuristicB) (routes : List (ℕ × List ℝ)) (l : LeafB) :
    (recompLeaf H routes l).id = l.id := by
  rw [recompLeaf]
  split <;> rfl

theorem recomputeGo_leaves (H : HeuristicB) (routes : List (ℕ × List ℝ)) (t : TreeB) :
    (recomputeGo H routes t).leaves = t.leaves.map (recompLeaf H routes) := by
  induction t with
  | leaf l => rfl
  | branch fs fb tb ihf iht =>
    simp only [recomputeGo, TreeB.leaves, List.map_append, ihf, iht]

theorem recomputeGo_evaluate (H : HeuristicB) (routes : List (ℕ × List ℝ)) (t : TreeB)
    (ts : TimestepSample) :
    (recomputeGo H routes t).evaluate ts = (t.evaluate ts).map (recompLeaf H routes) := by
  induction t with
  | leaf l => rfl
  | branch fs fb tb ihf iht =>
    simp only [recomputeGo, TreeB.evaluate]
    rcases h : unionEval ts fs with _ | b
    · rfl
    · cases b
      · exact ihf
      · exact iht

theorem routesTo_recomputeGo (H : HeuristicB) (routes : List (ℕ × List ℝ)) (t : TreeB)
    (v : vecSample) (lid : ℕ) :
    routesTo (recomputeGo H routes t) v lid = routesTo t v lid := by
  rw [routesTo, routesTo, recomputeGo_evaluate]
  rcases t.evaluate v.sample with _ | lf
  · rfl
  · simp [recompLeaf_id]

theorem routedVecs_recomputeGo (H : HeuristicB) (routes : List (ℕ × List ℝ)) (t : TreeB)
    (vs : List vecSample) (lid : ℕ) :
    routedVecs (recomputeGo H routes t) vs lid = routedVecs t vs lid := by
  rw [routedVecs, routedVecs, List.filter_congr]
  intro v _
  exact routesTo_recomputeGo H routes t v lid

theorem routeM_filter (t : TreeB) (vs : List vecSample) (routes : List (ℕ × List ℝ))
    (lid : ℕ) (h : routeM t vs = some routes) :
    (routes.filter (fun rt => rt.1 == lid)).map Prod.snd = routedVecs t vs lid := by
  induction vs generalizing routes with
  | nil =>
    rw [routeM] at h
    cases h
    rfl
  | cons v rest ih =>
    rw [routeM] at h
    rcases he : t.evaluate v.sample with _ | lf
    · rw [he] at h
      exact absurd h (by simp)
    · rw [he] at h
      rcases hr : routeM t rest with _ | rs
      · rw [hr] at h
        exact absurd h (by simp)
      · rw [hr] at h
        cases h
        have hroutes : routesTo t v lid = (lf.id == lid) := by
          rw [routesTo, he]
        by_cases hid : lf.id = lid
        · simp [routedVecs, List.filter_cons, hroutes, hid, ih rs hr]
        · simp [routedVecs, List.filter_cons, hroutes, hid, ih rs hr]

theorem routeM_any (t : TreeB) (vs : List vecSample) (routes : List (ℕ × List ℝ))
    (lid : ℕ) (h : routeM t vs = some routes) :
    routes.any (fun rt => rt.1 == lid) = true ↔ routedVecs t vs lid ≠ [] := by
  rw [← routeM_filter t vs routes lid h]
  simp only [ne_eq, List.map_eq_nil_iff, List.filter_eq_nil_iff, List.any_eq_true]
  constructor
  · intro ⟨rt, hmem, hp⟩ hall
    exact hall rt hmem hp
  · intro hnot
    by_contra hno
    push_neg at hno
    exact hnot (fun rt hmem hp => hno rt hmem hp)

/-- C8 (amended): `Pruner.Prune` panics when `MaxLeaves < 1`; returns the
input tree itself when the tree already has at most `MaxLeaves` leaves;
and when pruning occurs it returns a tree whose leaves are all fresh
objects (no leaf id of the result occurs in the input tree, modelling the
deep copy), in which every leaf that received at least one routed sample
has its output delta recomputed as the heuristic's `LeafOutput` of the
Kahan sum of the routed vectors.  Leaves receiving no samples keep their
copied delta — the original claim's "every leaf's output delta has been
recomputed" fails for them (`claim_C8_counterexample`).  The
well-formedness hypothesis `hwf` states that distinct leaves of the input
are distinct objects, which is automatic for Go's pointer-keyed
`leafSums`. -/
theorem claim_C8 (H : HeuristicB) (maxLeaves : ℤ) (samples : List TimestepSample) (t : TreeB)
    (hwf : (t.leaves.map LeafB.id).Nodup) :
    (maxLeaves < 1 → pruneB H maxLeaves samples t = none) ∧
    (1 ≤ maxLeaves → (t.leaves.length : ℤ) ≤ maxLeaves →
      pruneB H maxLeaves samples t = some t) ∧
    (∀ r, pruneB H maxLeaves samples t = some r → maxLeaves < (t.leaves.length : ℤ) →
      (∀ lf ∈ r.leaves, lf.id ∉ t.leaves.map LeafB.id) ∧
      (∀ lf ∈ r.leaves, routedVecs r (newVecSamples H samples) lf.id ≠ [] →
        lf.outputDelta =
          H.leafOutput (leafKahan (routedVecs r (newVecSamples H samples) lf.id)))) := by
  refine ⟨fun hlt => ?_, fun h1 hle => ?_, fun r hpr hgt => ?_⟩
  · rw [pruneB, if_pos hlt]
  · rw [pruneB, if_neg (by omega), if_pos hle]
  · have h1 : ¬ maxLeaves < 1 := by
      intro hlt
      rw [pruneB, if_pos hlt] at hpr
      exact Option.noConfusion hpr
    rw [pruneB, if_neg h1, if_neg (by omega)] at hpr
    obtain ⟨r0, hr0, hrec⟩ := Option.bind_eq_some.mp hpr
    rw [recomputeOutputDeltas] at hrec
    obtain ⟨routes, hroutes, hr⟩ := Option.map_eq_some'.mp hrec
    subst hr
    constructor
    · intro lf hlf
      rw [recomputeGo_leaves] at hlf
      obtain ⟨l, hl, rfl⟩ := List.mem_map.mp hlf
      intro hmem
      rw [List.mem_map] at hmem
      obtain ⟨l', hl', hid⟩ := hmem
      have hge : t.maxId + 1 ≤ l.id := copyFrom_leaf_id_ge r0 (t.maxId + 1) l hl
      have hle' : l'.id ≤ t.maxId := leaf_id_le_maxId t l' hl'
      rw [recompLeaf_id] at hid
      omega
    · intro lf hlf hne
      rw [recomputeGo_leaves] at hlf
      obtain ⟨l, hl, rfl⟩ := List.mem_map.mp hlf
      have hrv : routedVecs (recomputeGo H routes ((r0.copyFrom (t.maxId + 1)).1))
          (newVecSamples H samples) (recompLeaf H routes l).id =
          routedVecs ((r0.copyFrom (t.maxId + 1)).1) (newVecSamples H samples) l.id := by
        rw [routedVecs_recomputeGo, recompLeaf_id]
      rw [hrv] at hne ⊢
      have hany : routes.any (fun rt => rt.1 == l.id) = true :=
        (routeM_any _ _ routes l.id hroutes).mpr hne
      have hdelta : (recompLeaf H routes l).outputDelta =
          H.leafOutput (leafKahan ((routes.filter (fun rt => rt.1 == l.id)).map Prod.snd)) := by
        rw [recompLeaf, if_pos hany]
      rw [hdelta, routeM_filter _ _ routes l.id hroutes]

/-- Trivial heuristic for the C8 witness. -/
def cw8H : HeuristicB := ⟨fun _ => [], fun _ => 0, fun _ => []⟩

/-- Single-leaf tree for the C8 witness. -/
def cw8t : TreeB := .leaf ⟨0, [], 0⟩

/-- Witness for `claim_C8`: a single-leaf tree with `MaxLeaves = 1` is
returned itself, and `MaxLeaves = 0` panics. -/
theorem claim_C8_witness :
    pruneB cw8H 1 [] cw8t = some cw8t ∧ pruneB cw8H 0 [] cw8t = none := by
  refine ⟨(claim_C8 cw8H 1 [] cw8t ?_).2.1 (by norm_num) ?_,
    (claim_C8 cw8H 0 [] cw8t ?_).1 (by norm_num)⟩
  · simp [cw8t, TreeB.leaves]
  · simp [cw8t, TreeB.leaves]
  · simp [cw8t, TreeB.leaves]

/-- Timestep for the C8 counterexample: two feature bits, both clear;
softmax over two outputs at the origin with one-hot target. -/
def cx8ts : TimestepB := ⟨⟨2, [0]⟩, [0, 0], [1, 0]⟩

/-- Sample at index 0 of the singleton sequence `[cx8ts]`. -/
def cx8s : TimestepSample := ⟨[cx8ts], 0⟩

/-- Embedding of `GradientHeuristic` with the softmax loss
(src/heuristic.go lines 36-63) as a `HeuristicB`.  The `Timestep()` panic
on an out-of-range sample and the panics of `Quality`/`LeafOutput` on an
empty aggregate are collapsed to default values; none is reached on the
concrete inputs below. -/
noncomputable def cx8H : HeuristicB :=
  ⟨fun s => match s.timestep with
    | some ts => gradSampleVector .softmax ts
    | none => [],
   fun v => (gradQuality v).getD 0,
   fun v => (gradLeafOutput v).getD []⟩

/-- The gradient sample vector of `cx8s`: count channel then the softmax
gradient at `([0,0], [1,0])`. -/
noncomputable def cx8v : List ℝ := [1, -(1 / 2), 1 / 2]

/-- Three-leaf input tree for the C8 counterexample; both branch features
test clear bits, so every sample routes false-false to leaf 0. -/
def cx8Tree : TreeB :=
  .branch [⟨0, 0⟩] (.leaf ⟨0, [1, 1], 0⟩)
    (.branch [⟨1, 0⟩] (.leaf ⟨1, [3, 3], 0⟩) (.leaf ⟨2, [5, 5], 0⟩))

/-- The candidate with leaf 0 elided — the winner of the pruning round. -/
def cx8candA : TreeB := .branch [⟨1, 0⟩] (.leaf ⟨1, [3, 3], 0⟩) (.leaf ⟨2, [5, 5], 0⟩)

/-- The candidate with leaf 1 elided. -/
def cx8candB : TreeB := .branch [⟨0, 0⟩] (.leaf ⟨0, [1, 1], 0⟩) (.leaf ⟨2, [5, 5], 0⟩)

/-- The candidate with leaf 2 elided. -/
def cx8candC : TreeB := .branch [⟨0, 0⟩] (.leaf ⟨0, [1, 1], 0⟩) (.leaf ⟨1, [3, 3], 0⟩)

/-- The deep copy of the winning candidate, with fresh ids from
`cx8Tree.maxId + 1 = 3`. -/
def cx8copy : TreeB := .branch [⟨1, 0⟩] (.leaf ⟨3, [3, 3], 0⟩) (.leaf ⟨4, [5, 5], 0⟩)

/-- The pruned, copied, recomputed result: leaf 3 receives both samples
and is refit; leaf 4 receives none and keeps the copied `[5, 5]`. -/
noncomputable def cx8result : TreeB :=
  .branch [⟨1, 0⟩] (.leaf ⟨3, [1 / 2, -(1 / 2)], 0⟩) (.leaf ⟨4, [5, 5], 0⟩)

theorem cx8grad : softmaxLossGrad [0, 0] [1, 0] = [-(1 / 2), 1 / 2] := by
  simp [softmaxLossGrad, goMax]
  norm_num

theorem cx8vec : cx8H.sampleVector cx8s = cx8v := by
  have ht : cx8s.timestep = some cx8ts := rfl
  simp only [cx8H, ht, gradSampleVector, GradLoss.lossGrad]
  show 1 :: softmaxLossGrad [0, 0] [1, 0] = cx8v
  rw [cx8grad, cx8v]

theorem cx8vs : newVecSamples cx8H [cx8s, cx8s] = [⟨cx8s, cx8v⟩, ⟨cx8s, cx8v⟩] := by
  simp only [newVecSamples, List.map_cons, List.map_nil, cx8vec]

theorem cx8sum : leafKahan [cx8v, cx8v] = [2, -1, 1] := by
  rw [leafKahan_eq_vecSum [cx8v, cx8v] 3 (by simp)]
  · show vadd cx8v (vecSum [cx8v]) = [2, -1, 1]
    show vadd cx8v cx8v = [2, -1, 1]
    rw [cx8v, vadd]
    norm_num
  · intro v hv
    simp only [List.mem_cons, List.not_mem_nil, or_false] at hv
    rcases hv with rfl | rfl <;> rw [cx8v] <;> rfl

theorem cx8qual : cx8H.quality [2, -1, 1] = 1 := by
  show (gradQuality [2, -1, 1]).getD 0 = 1
  show (if (2 : ℝ) = 0 then 0 else normSq [-1, 1] / 2) = 1
  rw [if_neg (by norm_num), normSq]
  norm_num

theorem cx8leafOut : cx8H.leafOutput [2, -1, 1] = [1 / 2, -(1 / 2)] := by
  show ([-1, 1].map (fun x => x * (-1 / (2 : ℝ)))) = [1 / 2, -(1 / 2)]
  norm_num

theorem cx8qA : treeQualityM cx8H [⟨cx8s, cx8v⟩, ⟨cx8s, cx8v⟩] cx8candA = some 1 := by
  have h : treeQualityM cx8H [⟨cx8s, cx8v⟩, ⟨cx8s, cx8v⟩] cx8candA =
      some (cx8H.quality (leafKahan [cx8v, cx8v]) + 0) := rfl
  rw [h, cx8sum, cx8qual, add_zero]

theorem cx8qB : treeQualityM cx8H [⟨cx8s, cx8v⟩, ⟨cx8s, cx8v⟩] cx8candB = some 1 := by
  have h : treeQualityM cx8H [⟨cx8s, cx8v⟩, ⟨cx8s, cx8v⟩] cx8candB =
      some (cx8H.quality (leafKahan [cx8v, cx8v]) + 0) := rfl
  rw [h, cx8sum, cx8qual, add_zero]

theorem cx8qC : treeQualityM cx8H [⟨cx8s, cx8v⟩, ⟨cx8s, cx8v⟩] cx8candC = some 1 := by
  have h : treeQualityM cx8H [⟨cx8s, cx8v⟩, ⟨cx8s, cx8v⟩] cx8candC =
      some (cx8H.quality (leafKahan [cx8v, cx8v]) + 0) := rfl
  rw [h, cx8sum, cx8qual, add_zero]

theorem cx8best : bestPruneM cx8H [⟨cx8s, cx8v⟩, ⟨cx8s, cx8v⟩] cx8Tree = some cx8candA := by
  rw [bestPruneM]
  rw [show cx8Tree.leaves = [⟨0, [1, 1], 0⟩, ⟨1, [3, 3], 0⟩, ⟨2, [5, 5], 0⟩] from rfl]
  rw [List.foldlM_cons]
  rw [show bestStep cx8H [⟨cx8s, cx8v⟩, ⟨cx8s, cx8v⟩] cx8Tree none ⟨0, [1, 1], 0⟩ =
      (treeQualityM cx8H [⟨cx8s, cx8v⟩, ⟨cx8s, cx8v⟩] cx8candA).map
        (fun q => some (cx8candA, q)) from rfl]
  rw [cx8qA, Option.map_some']
  simp only [Option.bind_eq_bind, Option.some_bind]
  rw [List.foldlM_cons]
  rw [show bestStep cx8H [⟨cx8s, cx8v⟩, ⟨cx8s, cx8v⟩] cx8Tree (some (cx8candA, 1))
        ⟨1, [3, 3], 0⟩ =
      (treeQualityM cx8H [⟨cx8s, cx8v⟩, ⟨cx8s, cx8v⟩] cx8candB).map
        (fun q => if (1 : ℝ) < q then some (cx8candB, q) else some (cx8candA, 1)) from rfl]
  rw [cx8qB, Option.map_some', if_neg (lt_irrefl (1 : ℝ))]
  simp only [Option.bind_eq_bind, Option.some_bind]
  rw [List.foldlM_cons]
  rw [show bestStep cx8H [⟨cx8s, cx8v⟩, ⟨cx8s, cx8v⟩] cx8Tree (some (cx8candA, 1))
        ⟨2, [5, 5], 0⟩ =
      (treeQualityM cx8H [⟨cx8s, cx8v⟩, ⟨cx8s, cx8v⟩] cx8candC).map
        (fun q => if (1 : ℝ) < q then some (cx8candC, q) else some (cx8candA, 1)) from rfl]
  rw [cx8qC, Option.map_some', if_neg (lt_irrefl (1 : ℝ))]
  simp only [Option.bind_eq_bind, Option.some_bind, List.foldlM_nil]
  rfl

theorem pruneLoop_succ (H : HeuristicB) (vs : List vecSample) (m : ℤ) (n : ℕ) (t : TreeB) :
    pruneLoop H vs m (n + 1) t =
      if (t.leaves.length : ℤ) ≤ m then some t
      else (bestPruneM H vs t).bind (pruneLoop H vs m n) := rfl

theorem cx8loop : pruneLoop cx8H [⟨cx8s, cx8v⟩, ⟨cx8s, cx8v⟩] 2 3 cx8Tree =
    some cx8candA := by
  rw [show (3 : ℕ) = 2 + 1 from rfl, pruneLoop_succ, if_neg (by decide), cx8best]
  rfl

theorem cx8routeCopy : routeM cx8copy [⟨cx8s, cx8v⟩, ⟨cx8s, cx8v⟩] =
    some [(3, cx8v), (3, cx8v)] := rfl

theorem cx8rec : recomputeOutputDeltas cx8H [⟨cx8s, cx8v⟩, ⟨cx8s, cx8v⟩] cx8copy =
    some cx8result := by
  rw [recomputeOutputDeltas, cx8routeCopy, Option.map_some']
  congr 1
  show TreeB.branch [⟨1, 0⟩]
      (.leaf (recompLeaf cx8H [((3 : ℕ), cx8v), (3, cx8v)] ⟨3, [3, 3], 0⟩))
      (.leaf (recompLeaf cx8H [((3 : ℕ), cx8v), (3, cx8v)] ⟨4, [5, 5], 0⟩)) = cx8result
  have h3 : recompLeaf cx8H [((3 : ℕ), cx8v), (3, cx8v)] ⟨3, [3, 3], 0⟩ =
      ⟨3, cx8H.leafOutput (leafKahan [cx8v, cx8v]), 0⟩ := rfl
  have h4 : recompLeaf cx8H [((3 : ℕ), cx8v), (3, cx8v)] ⟨4, [5, 5], 0⟩ =
      ⟨4, [5, 5], 0⟩ := rfl
  rw [h3, h4, cx8sum, cx8leafOut]
  rfl

theorem cx8prune : pruneB cx8H 2 [cx8s, cx8s] cx8Tree = some cx8result := by
  rw [pruneB, if_neg (by norm_num), if_neg (by decide), cx8vs]
  rw [show cx8Tree.leaves.length = 3 from rfl, show cx8Tree.maxId + 1 = 3 from rfl]
  rw [cx8loop]
  simp only [Option.bind_eq_bind, Option.some_bind]
  rw [show (cx8candA.copyFrom 3).1 = cx8copy from rfl]
  exact cx8rec

/-- C8's "every leaf's output delta has been recomputed" is false: on the
concrete pruning below, both samples route to leaf 3 of the result, whose
delta is refit, but leaf 4 receives no samples, is skipped by the
`leafSums`-keyed recomputation, and keeps its copied delta `[5, 5]` —
which is not the heuristic's `LeafOutput` of its (empty) routed Kahan
sum. -/
theorem claim_C8_counterexample :
    2 < (cx8Tree.leaves.length : ℤ) ∧
    pruneB cx8H 2 [cx8s, cx8s] cx8Tree = some cx8result ∧
    ∃ lf ∈ cx8result.leaves,
      lf.outputDelta ≠ cx8H.leafOutput (leafKahan
        (routedVecs cx8result (newVecSamples cx8H [cx8s, cx8s]) lf.id)) := by
  refine ⟨by decide, cx8prune, ⟨4, [5, 5], 0⟩, ?_, ?_⟩
  · show (⟨4, [5, 5], 0⟩ : LeafB) ∈ cx8result.leaves
    rw [show cx8result.leaves = [⟨3, [1 / 2, -(1 / 2)], 0⟩, ⟨4, [5, 5], 0⟩] from rfl]
    simp
  · have hroute : routedVecs cx8result (newVecSamples cx8H [cx8s, cx8s]) 4 = [] := by
      rw [cx8vs]
      rfl
    rw [hroute, show leafKahan ([] : List (List ℝ)) = [] from rfl,
      show cx8H.leafOutput [] = [] from rfl]
    simp

end Seqtree
